import Mathlib

/-
Verification development for `pummeler/featurize.py`.

The Python source works on pandas DataFrames of survey records and numpy
float matrices.  We shallow-embed it as follows:

* a floating-point cell is an `FVal`: either an exact rational (`fin q`),
  `pinf`/`ninf` (the IEEE infinities produced by division by zero), or
  `nan` (both the missing-value marker used by pandas and the result of
  `0/0`);
* a record (DataFrame row) is a total function from column names to `FVal`;
* a pandas `Series` (such as `stats['real_means']`) is an ordered
  association list, a python dict an association list as well;
* fallible numpy/pandas operations (KeyError, broadcast mismatch, index
  errors, failed `assert`) are modelled by returning `none`;
* the embedding arithmetic (`linear_embedding`, `rff_embedding`, the
  chunk recombination in `get_embeddings`) is over `ℚ`, exact where the
  floats are approximate.
-/

namespace Featurize

/-- A floating-point value as used by the encoder: an exact rational,
one of the two IEEE infinities, or NaN (which also encodes a missing
value in a DataFrame column). -/
inductive FVal : Type where
  | fin (q : ℚ)
  | pinf
  | ninf
  | nan
deriving DecidableEq, Repr

namespace FVal

/-- IEEE equality test as pandas uses it when matching a value against the
stored category index: NaN compares unequal to everything (including
itself), infinities compare equal to themselves. -/
def feq : FVal → FVal → Bool
  | fin a, fin b => a = b
  | pinf, pinf => true
  | ninf, ninf => true
  | _, _ => false

/-- IEEE subtraction on `FVal` (`value - mean` in the standardization). -/
def fsub : FVal → FVal → FVal
  | fin a, fin b => fin (a - b)
  | fin _, pinf => ninf
  | fin _, ninf => pinf
  | pinf, fin _ => pinf
  | ninf, fin _ => ninf
  | pinf, ninf => pinf
  | ninf, pinf => ninf
  | pinf, pinf => nan
  | ninf, ninf => nan
  | nan, _ => nan
  | _, nan => nan

/-- IEEE division on `FVal` (`. / std` in the standardization).  Division
of a nonzero finite value by (positive) zero gives a signed infinity,
`0/0` gives NaN. -/
def fdiv : FVal → FVal → FVal
  | fin a, fin b =>
      if b = 0 then (if a = 0 then nan else if 0 < a then pinf else ninf)
      else fin (a / b)
  | fin _, pinf => fin 0
  | fin _, ninf => fin 0
  | pinf, fin b => if 0 ≤ b then pinf else ninf
  | ninf, fin b => if 0 ≤ b then ninf else pinf
  | pinf, pinf => nan
  | pinf, ninf => nan
  | ninf, pinf => nan
  | ninf, ninf => nan
  | nan, _ => nan
  | _, nan => nan

/-- `reals[np.isnan(reals)] = 0`: NaN entries (and only NaN entries;
`np.isnan` is false on the infinities) are overwritten with `0`. -/
def nanToZero (v : FVal) : FVal :=
  if v = nan then fin 0 else v

/-- Rendering of a category value, used to build the one-hot column
names `'{k}_{v}'`. -/
def str : FVal → String
  | fin q => toString q
  | pinf => "inf"
  | ninf => "-inf"
  | nan => "nan"

end FVal

/-- A DataFrame row: column name to cell value. -/
def Record : Type := String → FVal

/-- The per-version schema information `VERSIONS[stats['version']]`
(supplied by `pummeler.reader`, outside the featurization module):
ordered lists of real-valued, discrete and allocation-flag feature
names. -/
structure SchemaInfo : Type where
  real_feats : List String
  discrete_feats : List String
  alloc_flags : List String

/-- The statistics bundle `stats`: per-real-feature means and standard
deviations (ordered `Series`), per-discrete-feature ordered category
counts (`value_counts`, a mapping from feature name to an ordered list of
(category value, count) pairs), the total number of training records, and
the saved reference sample. -/
structure Stats : Type where
  real_means : List (String × FVal)
  real_stds : List (String × FVal)
  value_counts : List (String × List (FVal × ℕ))
  n_total : ℕ
  sample : List Record

/-- Python dict lookup `stats['value_counts'][k]` on the association
list; `none` is a `KeyError`. -/
def vcLookup (vcs : List (String × List (FVal × ℕ))) (k : String) :
    Option (List (FVal × ℕ)) :=
  (vcs.find? (fun kv => kv.1 = k)).map (fun kv => kv.2)

/-- `[f for f in info['real_feats'] if f not in skip_feats]`. -/
def keptReal (info : SchemaInfo) (skip : List String) : List String :=
  info.real_feats.filter (fun f => ¬ f ∈ skip)

/-- The features iterated by the one-hot loop:
`info['discrete_feats'] + info['alloc_flags']` with `skip_feats`
removed (the loop body starts with `if k in skip_feats: continue`). -/
def keptDisc (info : SchemaInfo) (skip : List String) : List String :=
  (info.discrete_feats ++ info.alloc_flags).filter (fun f => ¬ f ∈ skip)

/-- Effect of the numpy broadcast in `reals[:] -= stats['real_means']`
(and the analogous `/=`): the Series' values must either match the kept
real-feature count exactly or consist of a single value that is broadcast
across all columns; any other shape raises. -/
def bcastVals (vals : List FVal) (n : ℕ) : Option (List FVal) :=
  if vals.length = n then some vals
  else if vals.length = 1 then some (List.replicate n (vals.getD 0 FVal.nan))
  else none

/-- One standardized real cell: `(value - mean) / std`, then the
`np.isnan` masking sets NaN results (only NaN results) to `0`. -/
def standardize (v m s : FVal) : FVal :=
  FVal.nanToZero ((v.fsub m).fdiv s)

/-- The standardized real part of one record's feature row
(`reals[:] = df[real_feats]; reals -= means; reals /= stds;
reals[np.isnan(reals)] = 0`), with `means`/`stds` already broadcast to
the kept real features. -/
def realRow (kept : List String) (means stds : List FVal) (r : Record) :
    List FVal :=
  List.zipWith (fun f ms => standardize (r f) ms.1 ms.2)
    kept (means.zip stds)

/-- Row `i` of `np.eye(n)`: the one-hot vector of length `n` with the
`1` at position `i`. -/
def oneHot (n i : ℕ) : List FVal :=
  (List.range n).map (fun j => if j = i then FVal.fin 1 else FVal.fin 0)

/-- `pd.Categorical(df[k], categories=vc.index).codes` for one cell: the
position of the first stored category the cell's value compares equal
to, or `none` (pandas code `-1`) when the value is missing or unseen.
(pandas requires the stored categories to be unique, so the first match
is the match.) -/
def catCode (cats : List FVal) (v : FVal) : Option ℕ :=
  match cats with
  | [] => none
  | c :: t => if v.feq c then some 0 else (catCode t v).map (fun i => i + 1)

/-- The one-hot block one record contributes for one discrete feature.

With an overflow column (`vc.sum() < stats['n_total']`), code `-1` is
remapped to `n_codes` (`c[c == -1] = n_codes`) and the block is one-hot
over `n_codes + 1` columns.  Without one, the codes are fed to
`np.eye(n_codes).take(c, axis=0)` unchanged: `np.take` accepts the
negative index `-1` and selects the LAST row of the identity, so an
unseen or missing value becomes one-hot at position `n_codes - 1`; when
`n_codes = 0` the same lookup is an IndexError (`none`). -/
def discreteBlock (vc : List (FVal × ℕ)) (n_total : ℕ) (v : FVal) :
    Option (List FVal) :=
  let cats := vc.map (fun cv => cv.1)
  let n0 := vc.length
  if (vc.map (fun cv => cv.2)).sum < n_total then
    some (oneHot (n0 + 1) ((catCode cats v).getD n0))
  else
    match catCode cats v with
    | some i => some (oneHot n0 i)
    | none => if n0 = 0 then none else some (oneHot n0 (n0 - 1))

/-- Number of columns the encoder's cursor advances for feature `k`:
the stored category count, plus one when the overflow column exists. -/
def featWidth (stats : Stats) (k : String) : Option ℕ :=
  (vcLookup stats.value_counts k).map (fun vc =>
    vc.length + (if (vc.map (fun cv => cv.2)).sum < stats.n_total then 1 else 0))

/-- Option-valued `List.mapM`, written out recursively. -/
def optMap {α β : Type} (f : α → Option β) : List α → Option (List β)
  | [] => some []
  | a :: l => (f a).bind (fun b => (optMap f l).map (fun bs => b :: bs))

/-- Total-function version of `featWidth`, defined for reasoning about
well-formed stats (where every kept feature's lookup succeeds). -/
def widthFn (stats : Stats) (k : String) : ℕ :=
  match vcLookup stats.value_counts k with
  | some vc =>
      vc.length +
        (if (vc.map (fun cv => cv.2)).sum < stats.n_total then 1 else 0)
  | none => 0

/-- The final value of the column cursor `start_col` in `get_dummies`:
the number of kept real features plus the widths of all kept discrete
blocks (`none` when a `value_counts` lookup raises KeyError). -/
def producedWidth (stats : Stats) (info : SchemaInfo) (skip : List String) :
    Option ℕ :=
  (optMap (featWidth stats) (keptDisc info skip)).map (fun ws =>
    (keptReal info skip).length + ws.sum)

/-- `_num_feats(stats, skip_feats)`: the kept real features counted as a
set difference on the Series index, plus for each kept `value_counts`
entry its size plus one for the overflow column when
`v.sum() < n_total`. -/
def _num_feats (stats : Stats) (skip : List String) : ℕ :=
  ((stats.real_means.map (fun kv => kv.1)).toFinset \ skip.toFinset).card +
    ((stats.value_counts.filter (fun kv => ¬ kv.1 ∈ skip)).map (fun kv =>
      kv.2.length +
        (if (kv.2.map (fun cv => cv.2)).sum < stats.n_total then 1 else 0))).sum

/-- The `feat_names` list built when `ret_df` is true: the kept real
features, then for each kept discrete feature one `'{k}_{v}'` name per
stored category plus `'{k}_nan'` when the overflow column exists. -/
def featNamesOf (stats : Stats) (info : SchemaInfo) (skip : List String) :
    Option (List String) :=
  (optMap (fun k => (vcLookup stats.value_counts k).map (fun vc =>
      let base := vc.map (fun cv => k ++ "_" ++ cv.1.str)
      if (vc.map (fun cv => cv.2)).sum < stats.n_total
        then base ++ [k ++ "_nan"] else base))
    (keptDisc info skip)).map (fun blocks =>
      keptReal info skip ++ blocks.flatten)

/-- All discrete one-hot blocks of one record, concatenated in loop
order. -/
def discRow (stats : Stats) (info : SchemaInfo) (skip : List String)
    (r : Record) : Option (List FVal) :=
  (optMap (fun k => (vcLookup stats.value_counts k).bind (fun vc =>
      discreteBlock vc stats.n_total (r k)))
    (keptDisc info skip)).map (fun blocks => blocks.flatten)

/-- `get_dummies(df, stats, num_feats, skip_feats)` (the `ret_df=True`
variant; `ret_df=False` returns the same matrix without the names).
Returns the encoded `records × features` matrix together with
`feat_names`, or `none` when the Python call raises (KeyError on
`value_counts`, broadcast mismatch on the means/stds, the identity-row
IndexError, or the final `assert start_col == num_feats`). -/
def get_dummies (df : List Record) (stats : Stats) (info : SchemaInfo)
    (numFeats : Option ℕ) (skip_feats : List String) :
    Option (List (List FVal) × List String) :=
  let skip := skip_feats
  let nf := numFeats.getD (_num_feats stats skip)
  let kept := keptReal info skip
  (bcastVals (stats.real_means.map (fun kv => kv.2)) kept.length).bind
    (fun means =>
  (bcastVals (stats.real_stds.map (fun kv => kv.2)) kept.length).bind
    (fun stds =>
  (optMap (fun r => (discRow stats info skip r).map (fun blocks =>
      realRow kept means stds r ++ blocks)) df).bind (fun rows =>
  (featNamesOf stats info skip).bind (fun names =>
  (producedWidth stats info skip).bind (fun w =>
  if w = nf then some (rows, names) else none)))))

/-! ## Embedding primitives

The encoded matrix `feats` is `n × f`; we keep each encoded row abstract
as an element of a `ℚ`-module `V` (`Fin f → ℚ` in the concrete case) and
represent the `q × n` weight matrix `wts` by its list of rows.  The
output `f × q` matrix is represented by its list of `q` columns. -/

/-- Column `j` of `np.dot(feats.T, wts.T)`: the weight-combination
`Σ_i wts[j, i] · feats[i, :]` of the encoded rows. -/
def wdot {V : Type} [AddCommGroup V] [Module ℚ V]
    (w : List ℚ) (feats : List V) : V :=
  (List.zipWith (fun wi x => wi • x) w feats).sum

/-- `linear_embedding(feats, wts)`: the matrix product of the transposed
feature matrix with the transposed weights, with each column then
divided by its query's weight sum `w = wts.sum(axis=1)` — but only where
that sum is nonzero (`out[:, nz] /= w[nz]`); a zero-sum column is left
as the bare product. -/
def linear_embedding {V : Type} [AddCommGroup V] [Module ℚ V]
    (feats : List V) (wts : List (List ℚ)) : List V :=
  wts.map (fun w =>
    if w.sum = 0 then wdot w feats else (w.sum)⁻¹ • wdot w feats)

/-- Entry `d` of `angles = np.dot(feats, freqs)` for one encoded row. -/
def angleAt {f D : ℕ} (freqs : Fin f → Fin D → ℚ) (x : Fin f → ℚ)
    (d : Fin D) : ℚ :=
  ∑ k, x k * freqs k d

/-- The `(sin(angles), cos(angles))` pair of one encoded row, the `sin`
and `cos` functions being parameters of the model (their values are
transcendental; every property below holds for arbitrary `sinf`/`cosf`).
The first component stands for the row's slice of `out[:D]`, the second
for `out[D:]`. -/
def rff_features {f D : ℕ} (sinf cosf : ℚ → ℚ) (freqs : Fin f → Fin D → ℚ)
    (x : Fin f → ℚ) : (Fin D → ℚ) × (Fin D → ℚ) :=
  (fun d => sinf (angleAt freqs x d), fun d => cosf (angleAt freqs x d))

/-- `rff_embedding(feats, wts, freqs)`: the code computes
`np.dot(sin_angles.T, wts.T)` into `out[:D]` and
`np.dot(cos_angles.T, wts.T)` into `out[D:]`, then divides the nonzero-sum
columns of the whole `2D × q` output by the weight sums — which is the
`linear_embedding` pattern applied to the paired sine/cosine feature
rows (the product module adds and scales the two halves
componentwise). -/
def rff_embedding {f D : ℕ} (sinf cosf : ℚ → ℚ) (feats : List (Fin f → ℚ))
    (wts : List (List ℚ)) (freqs : Fin f → Fin D → ℚ) :
    List ((Fin D → ℚ) × (Fin D → ℚ)) :=
  linear_embedding (feats.map (rff_features sinf cosf freqs)) wts

/-! ## Bandwidth selection (`pick_gaussian_bandwidth`)

The function returns `np.sqrt` of the median of the strictly
upper-triangular pairwise squared distances; since the square root is
irrational we model the value *before* the final `np.sqrt`, written
`pick_gaussian_bandwidth_sq`. -/

/-- Extract the exact rational from a finite cell. -/
def FVal.finQ : FVal → Option ℚ
  | FVal.fin q => some q
  | _ => none

/-- Dot product of two rows. -/
def dotL (a b : List ℚ) : ℚ := (List.zipWith (fun x y => x * y) a b).sum

/-- One entry of `euclidean_distances(samp, squared=True)`: sklearn
computes `‖x‖² - 2·x·y + ‖y‖²` from the Gram matrix and clips negative
results to zero. -/
def gramDist (a b : List ℚ) : ℚ :=
  max 0 ((a.map (fun x => x ^ 2)).sum - 2 * dotL a b +
    (b.map (fun x => x ^ 2)).sum)

/-- The squared Euclidean distance written directly. -/
def sqdist (a b : List ℚ) : ℚ :=
  (List.zipWith (fun x y => (x - y) ^ 2) a b).sum

/-- `np.triu_indices_from(D2, k=1)` in row-major order: all index pairs
`(i, j)` with `i < j < n`. -/
def triuPairs (n : ℕ) : List (ℕ × ℕ) :=
  (List.range n).flatMap (fun i =>
    ((List.range n).filter (fun j => i < j)).map (fun j => (i, j)))

/-- `np.median`: sort, then take the middle element (odd length) or the
mean of the two middle elements (even length); `none` on an empty
list (numpy would produce NaN). -/
def npMedian (l : List ℚ) : Option ℚ :=
  if l.length = 0 then none
  else
    let s := l.mergeSort (fun a b => a ≤ b)
    some (if s.length % 2 = 1 then s.getD (s.length / 2) 0
      else (s.getD (s.length / 2 - 1) 0 + s.getD (s.length / 2) 0) / 2)

/-- `pick_gaussian_bandwidth(stats, skip_feats)` up to the final
`np.sqrt`: encode the saved reference sample with the same skip-set
(`get_dummies(stats['sample'], stats, ret_df=False, skip_feats=...)`),
form the pairwise squared-distance matrix, and take the median of its
strictly upper triangular entries.  The encoded matrix must be finite
for the rational model to apply (a non-finite entry could only come from
a zero stored standard deviation, see `standardize`). -/
def pick_gaussian_bandwidth_sq (stats : Stats) (info : SchemaInfo)
    (skip : List String) : Option ℚ :=
  (get_dummies stats.sample stats info none skip).bind (fun md =>
  (optMap (optMap FVal.finQ) md.1).bind (fun mq =>
  npMedian ((triuPairs mq.length).map (fun ij =>
    gramDist (mq.getD ij.1 []) (mq.getD ij.2 [])))))

/-! ## Stream aggregator (`get_embeddings`)

Records are abstract (`α`); the reader's chunking of a file is an
explicit `List (List α)`; the subset-query evaluation
`c.eval(subsets)` is rowwise, so a parsed query is a predicate
`α → Bool` and the evaluator a function from the query string to the
list of parsed queries.  Randomness (the frequency sampler) and the
bandwidth heuristic's square root are threaded in as parameters. -/

/-- The workaround for the pandas single-row `eval` defect: a one-record
chunk is duplicated (`pd.concat([c, c])`) before query evaluation and
sliced back to its first row (`c.iloc[:1]`) right after — a no-op for a
rowwise evaluator. -/
def hackRows {α : Type} (rows : List α) : List α :=
  if rows.length = 1 then (rows ++ rows).take 1 else rows

/-- `keep = which.any(axis=0); c = c.loc[keep]`: the chunk's rows that at
least one subset query selects. -/
def keptRows {α : Type} (queries : List (α → Bool)) (rows : List α) :
    List α :=
  (hackRows rows).filter (fun r => queries.any (fun θ => θ r))

/-- One iteration of the per-chunk loop body, for a chunk that survives
the `if not c.shape[0]: continue` test: encode the kept rows, build the
weight matrix (`np.tile(c.PWGTP, (n_subsets, 1))` with entries zeroed
where the query's flag is false), and produce this chunk's linear
embedding piece, RFF embedding piece (`φ` is the per-record paired
sine/cosine feature map `rff_features ∘ encode`), and per-query weight
sums `ws = wts.sum(axis=1)`.  `none` means the chunk was skipped. -/
def processChunk {α V1 V2 : Type} [AddCommGroup V1] [Module ℚ V1]
    [AddCommGroup V2] [Module ℚ V2]
    (queries : List (α → Bool)) (wt : α → ℚ) (enc : α → V1) (φ : α → V2)
    (rows : List α) : Option (List V1 × List V2 × List ℚ) :=
  let kept := keptRows queries rows
  if kept.isEmpty then none
  else
    let wts := queries.map (fun θ =>
      kept.map (fun r => if θ r then wt r else 0))
    some (linear_embedding (kept.map enc) wts,
      linear_embedding (kept.map φ) wts,
      wts.map List.sum)

/-- Elementwise sum of two per-query column lists
(`emb += ...`, `total_weights += ws`). -/
def addCols {V : Type} [Add V] (a b : List V) : List V :=
  List.zipWith (fun x y => x + y) a b

/-- `l * rs`: scale each query's column by that query's ratio. -/
def scaleCols {V : Type} [SMul ℚ V] (rs : List ℚ) (cols : List V) :
    List V :=
  List.zipWith (fun c x => c • x) rs cols

/-- Per-chunk contribution ratios: `ratio = ws.copy()` then
`ratio[nz] /= total_weights[nz]` — entries whose file total is zero are
left at the chunk's own weight sum (which is then also zero for
non-negative weights). -/
def chunkRatios (total ws : List ℚ) : List ℚ :=
  List.zipWith (fun w t => if t = 0 then w else w / t) ws total

/-- The whole per-file loop of `get_embeddings`: process every chunk,
accumulate the per-query weight totals, then recombine the chunk pieces
by the ratio-weighted sum.  Returns (final linear embedding columns,
final RFF embedding columns, region weights), each indexed by query. -/
def file_embedding {α V1 V2 : Type} [AddCommGroup V1] [Module ℚ V1]
    [AddCommGroup V2] [Module ℚ V2]
    (queries : List (α → Bool)) (wt : α → ℚ) (enc : α → V1) (φ : α → V2)
    (chunks : List (List α)) : List V1 × List V2 × List ℚ :=
  let ps := chunks.filterMap (processChunk queries wt enc φ)
  let q := queries.length
  let total := ps.foldl (fun acc p => addCols acc p.2.2)
    (List.replicate q (0 : ℚ))
  (ps.foldl (fun acc p => addCols acc (scaleCols (chunkRatios total p.2.2) p.1))
      (List.replicate q (0 : V1)),
    ps.foldl (fun acc p => addCols acc (scaleCols (chunkRatios total p.2.2) p.2.1))
      (List.replicate q (0 : V2)),
    total)

/-! Specification-side quantities used to reason about the per-file
loop: the weight a record contributes to one query, and a chunk's
per-query weight sum, weighted feature sum, and normalized piece. -/

/-- The weight record `r` contributes to query `θ`: its `PWGTP` weight
if the query selects it, else `0` (one entry of the tiled-and-masked
weight matrix). -/
def qweight {α : Type} (wt : α → ℚ) (θ : α → Bool) (r : α) : ℚ :=
  if θ r then wt r else 0

/-- A chunk's weight sum for one query, taken over all of the chunk's
rows. -/
def chunkW {α : Type} (wt : α → ℚ) (θ : α → Bool) (rows : List α) : ℚ :=
  (rows.map (qweight wt θ)).sum

/-- A chunk's weighted sum of encoded rows for one query. -/
def chunkS {α V : Type} [AddCommGroup V] [Module ℚ V] (wt : α → ℚ)
    (θ : α → Bool) (e : α → V) (rows : List α) : V :=
  (rows.map (fun r => qweight wt θ r • e r)).sum

/-- A chunk's embedding piece for one query: the weighted mean of the
encoded rows, or `0` for a zero weight sum. -/
def chunkNorm {α V : Type} [AddCommGroup V] [Module ℚ V] (wt : α → ℚ)
    (θ : α → Bool) (e : α → V) (rows : List α) : V :=
  if chunkW wt θ rows = 0 then 0
  else (chunkW wt θ rows)⁻¹ • chunkS wt θ e rows

/-! ## Setup and post-processing of `get_embeddings` -/

/-- Python `str.rstrip()`: drop trailing whitespace. -/
def rstrip (s : List Char) : List Char :=
  (s.reverse.dropWhile Char.isWhitespace).reverse

/-- `n_subsets = subsets.rstrip()[:-1].count(',') + 1`: strip trailing
whitespace, drop the final character whatever it is, count the commas of
the remainder and add one. -/
def nSubsetsCount (s : List Char) : ℕ :=
  ((rstrip s).dropLast.count ',') + 1

/-- The number of comma-separated sub-expressions in the query string,
with one trailing comma tolerated: one more than the number of commas,
except that a comma in final position (after stripping trailing
whitespace) separates nothing. -/
def numSubExprs (s : List Char) : ℕ :=
  let t := rstrip s
  if t.getLast? = some ',' then t.count ',' else t.count ',' + 1

/-- The default subset query substituted when `subsets is None`. -/
def defaultSubsets : List Char := "PWGTP > 0".toList

/-- A per-file output with (`withQ`) or without (`noQ`) its trailing
query axis. -/
inductive Axised (β : Type) : Type where
  | withQ (m : List (List β))
  | noQ (v : List β)
deriving DecidableEq

/-- Whether the query axis was squeezed away. -/
def Axised.isNoQ {β : Type} : Axised β → Bool
  | .withQ _ => false
  | .noQ _ => true

/-- The post-processing `emb[:, :, 0]` applied when exactly one subset
query was requested and `squeeze_queries` is set. -/
def squeezeIf {β : Type} (squeeze : Bool) (nsub : ℕ) (z : β)
    (m : List (List β)) : Axised β :=
  if squeeze = true ∧ nsub = 1 then Axised.noQ (m.map (fun l => l.getD 0 z))
  else Axised.withQ m

/-- The value `get_embeddings` returns: a 3-tuple
`(emb_lin, region_weights, feat_names)` when `skip_rbf`, and a 6-tuple
`(emb_lin, emb_rff, region_weights, freqs, bandwidth, feat_names)`
otherwise.  `feat_names` is `none` when no chunk was ever encoded
(Python `None`), and `bandwidth` is `none` when the caller supplied
`freqs` but no bandwidth. -/
inductive GEReturn (V1 V2 : Type) : Type where
  | noRbf (lin : Axised V1) (region : Axised ℚ) (names : Option (List String))
  | rbf (lin : Axised V1) (rff : Axised V2) (region : Axised ℚ)
      (freqs : List (List ℚ)) (bandwidth : Option ℚ)
      (names : Option (List String))
deriving DecidableEq

/-- Whether the returned tuple carries the frequency matrix and the
bandwidth. -/
def GEReturn.hasFreqs {V1 V2 : Type} : GEReturn V1 V2 → Bool
  | .noRbf _ _ _ => false
  | .rbf _ _ _ _ _ _ => true

/-- The frequency matrix contained in the returned tuple, if any. -/
def GEReturn.freqsOut {V1 V2 : Type} : GEReturn V1 V2 → Option (List (List ℚ))
  | .noRbf _ _ _ => none
  | .rbf _ _ _ fr _ _ => some fr

/-- The bandwidth contained in the returned tuple, if any (`some none`
when the slot is present but holds Python `None`). -/
def GEReturn.bwOut {V1 V2 : Type} : GEReturn V1 V2 → Option (Option ℚ)
  | .noRbf _ _ _ => none
  | .rbf _ _ _ _ bw _ => some bw

/-- The `feat_names` component (present in both return shapes). -/
def GEReturn.namesOut {V1 V2 : Type} : GEReturn V1 V2 → Option (List String)
  | .noRbf _ _ n => n
  | .rbf _ _ _ _ _ n => n

/-- The linear-embedding component. -/
def GEReturn.linOut {V1 V2 : Type} : GEReturn V1 V2 → Axised V1
  | .noRbf l _ _ => l
  | .rbf l _ _ _ _ _ => l

/-- The region-weights component. -/
def GEReturn.regionOut {V1 V2 : Type} : GEReturn V1 V2 → Axised ℚ
  | .noRbf _ w _ => w
  | .rbf _ _ w _ _ _ => w

/-- The RFF component, when present. -/
def GEReturn.rffOut {V1 V2 : Type} : GEReturn V1 V2 → Option (Axised V2)
  | .noRbf _ _ _ => none
  | .rbf _ r _ _ _ _ => some r

/-- The model of `get_embeddings`.

External collaborators appear as parameters: `files` is the already
chunked record source (`pd.read_hdf(file, chunksize=...)`), `evalQ` the
pandas expression evaluator mapping the (comma-extended) query string to
the parsed rowwise queries, `wt` the `PWGTP` column accessor, `enc` the
per-record feature encoder (`get_dummies` with the merged skip-set),
`pickBW` the value of `pick_gaussian_bandwidth(stats, skip_feats)`
(irrational, hence threaded in), `sampleFreqs` the random frequency
sampler `pick_rff_freqs`, and `mkRff` the per-record paired sine/cosine
feature map determined by a frequency matrix.

The function mirrors the Python control flow: merge the allocation
flags into the skip-set when `skip_alloc_flags`; when RFF is not skipped
and no frequency matrix is supplied, resolve the bandwidth (caller's, or
the median heuristic) and sample frequencies, otherwise take `n_freqs`
from the supplied matrix's width; substitute `'PWGTP > 0'` when
`subsets is None`; count the sub-queries, appending a comma when there
is exactly one so `eval` returns a matrix; run the per-file loop; set
`feat_names` on the first encoded chunk; squeeze the query axis when
exactly one query was requested and `squeeze_queries` is set; and
return the 3-tuple or 6-tuple. -/
def get_embeddings {α V1 V2 : Type} [AddCommGroup V1] [Module ℚ V1]
    [AddCommGroup V2] [Module ℚ V2]
    (files : List (List (List α))) (stats : Stats) (info : SchemaInfo)
    (n_freqs : ℕ) (freqs0 : Option (List (List ℚ))) (bandwidth0 : Option ℚ)
    (skip_rbf : Bool) (skip_feats : List String)
    (subsets0 : Option (List Char)) (squeeze_queries : Bool)
    (skip_alloc_flags : Bool)
    (evalQ : List Char → List (α → Bool)) (wt : α → ℚ) (enc : α → V1)
    (pickBW : ℚ) (sampleFreqs : ℕ → ℚ → List (List ℚ))
    (mkRff : List (List ℚ) → α → V2) : GEReturn V1 V2 :=
  let skip := if skip_alloc_flags then skip_feats ++ info.alloc_flags
    else skip_feats
  let resolved : List (List ℚ) × Option ℚ :=
    match freqs0 with
    | none =>
        let b := bandwidth0.getD pickBW
        (sampleFreqs n_freqs b, some b)
    | some fr => (fr, bandwidth0)
  let fr := resolved.1
  let subsets1 := subsets0.getD defaultSubsets
  let nsub := nSubsetsCount subsets1
  let subsets2 := if nsub = 1 then subsets1 ++ [','] else subsets1
  let queries := evalQ subsets2
  let results := files.map (file_embedding queries wt enc (mkRff fr))
  let namesQ : Option (List String) :=
    if files.any (fun f => f.any (fun c => ¬ (keptRows queries c).isEmpty))
    then featNamesOf stats info skip else none
  let embLin := results.map (fun t => t.1)
  let embRff := results.map (fun t => t.2.1)
  let regs := results.map (fun t => t.2.2)
  if skip_rbf then
    GEReturn.noRbf (squeezeIf squeeze_queries nsub 0 embLin)
      (squeezeIf squeeze_queries nsub 0 regs) namesQ
  else
    GEReturn.rbf (squeezeIf squeeze_queries nsub 0 embLin)
      (squeezeIf squeeze_queries nsub 0 embRff)
      (squeezeIf squeeze_queries nsub 0 regs) fr resolved.2 namesQ

/-! ## General lemmas -/

theorem all_zero_of_sum_eq_zero {l : List ℚ} (h0 : ∀ x ∈ l, 0 ≤ x)
    (hs : l.sum = 0) : ∀ x ∈ l, x = 0 := by
  induction l with
  | nil => simp
  | cons a t ih =>
    have hta : ∀ x ∈ t, 0 ≤ x := fun x hx => h0 x (List.mem_cons_of_mem _ hx)
    have h1 : 0 ≤ t.sum := List.sum_nonneg hta
    have ha : 0 ≤ a := h0 a (List.mem_cons_self a t)
    rw [List.sum_cons] at hs
    have ha0 : a = 0 := by linarith
    have ht0 : t.sum = 0 := by linarith
    intro x hx
    rcases List.mem_cons.mp hx with h | h
    · rw [h, ha0]
    · exact ih hta ht0 x h

theorem wdot_eq_zero {V : Type} [AddCommGroup V] [Module ℚ V] {w : List ℚ}
    (feats : List V) (h : ∀ x ∈ w, x = 0) : wdot w feats = 0 := by
  induction w generalizing feats with
  | nil => simp [wdot]
  | cons a t ih =>
    cases feats with
    | nil => simp [wdot]
    | cons x xs =>
      have ha : a = 0 := h a (List.mem_cons_self a t)
      simp only [wdot, List.zipWith_cons_cons, List.sum_cons, ha, zero_smul,
        zero_add]
      exact ih xs (fun y hy => h y (List.mem_cons_of_mem _ hy))

theorem linear_embedding_getElem {V : Type} [AddCommGroup V] [Module ℚ V]
    (feats : List V) (wts : List (List ℚ)) (j : ℕ) (w : List ℚ)
    (hj : wts[j]? = some w) :
    (linear_embedding feats wts)[j]? =
      some (if w.sum = 0 then wdot w feats else (w.sum)⁻¹ • wdot w feats) := by
  simp [linear_embedding, List.getElem?_map, hj]

theorem wdot_map_fst {β V1 V2 : Type} [AddCommGroup V1] [Module ℚ V1]
    [AddCommGroup V2] [Module ℚ V2] (w : List ℚ) (l : List β)
    (g : β → V1 × V2) :
    (wdot w (l.map g)).1 = wdot w (l.map (fun b => (g b).1)) := by
  induction w generalizing l with
  | nil => simp [wdot]
  | cons a t ih =>
    cases l with
    | nil => simp [wdot]
    | cons b bs =>
      simp only [List.map_cons, wdot, List.zipWith_cons_cons, List.sum_cons,
        Prod.fst_add, Prod.smul_fst]
      exact congrArg (fun z => a • (g b).1 + z) (ih bs)

theorem wdot_map_snd {β V1 V2 : Type} [AddCommGroup V1] [Module ℚ V1]
    [AddCommGroup V2] [Module ℚ V2] (w : List ℚ) (l : List β)
    (g : β → V1 × V2) :
    (wdot w (l.map g)).2 = wdot w (l.map (fun b => (g b).2)) := by
  induction w generalizing l with
  | nil => simp [wdot]
  | cons a t ih =>
    cases l with
    | nil => simp [wdot]
    | cons b bs =>
      simp only [List.map_cons, wdot, List.zipWith_cons_cons, List.sum_cons,
        Prod.snd_add, Prod.smul_snd]
      exact congrArg (fun z => a • (g b).2 + z) (ih bs)

theorem wdot_pi_apply {β : Type} {D : ℕ} (w : List ℚ) (l : List β)
    (g : β → Fin D → ℚ) (d : Fin D) :
    wdot w (l.map g) d =
      (List.zipWith (fun wi b => wi * g b d) w l).sum := by
  induction w generalizing l with
  | nil => simp [wdot]
  | cons a t ih =>
    cases l with
    | nil => simp [wdot]
    | cons b bs =>
      simp only [List.map_cons, wdot, List.zipWith_cons_cons, List.sum_cons,
        Pi.add_apply, Pi.smul_apply, smul_eq_mul]
      exact congrArg (fun z => a * g b d + z) (ih bs)

/-! ## Claim C4 -/

/-- C4: for every encoded feature matrix and non-negative weight matrix,
a query row whose weights sum to exactly zero yields an all-zero output
column (never NaN) in both `linear_embedding` and `rff_embedding`, and a
query row with nonzero weight sum yields the weighted mean of the
encoded rows (respectively of the paired sine/cosine feature rows). -/
theorem c4_zero_weight_guard {V1 : Type} [AddCommGroup V1] [Module ℚ V1]
    {f D : ℕ} (sinf cosf : ℚ → ℚ) (feats : List V1)
    (rfeats : List (Fin f → ℚ)) (freqs : Fin f → Fin D → ℚ)
    (wts : List (List ℚ)) (hw : ∀ w ∈ wts, ∀ x ∈ w, 0 ≤ x)
    (j : ℕ) (w : List ℚ) (hj : wts[j]? = some w) :
    (w.sum = 0 →
      (linear_embedding feats wts)[j]? = some 0 ∧
      (rff_embedding sinf cosf rfeats wts freqs)[j]? = some 0) ∧
    (w.sum ≠ 0 →
      (linear_embedding feats wts)[j]? =
        some ((w.sum)⁻¹ • wdot w feats) ∧
      (rff_embedding sinf cosf rfeats wts freqs)[j]? =
        some ((w.sum)⁻¹ •
          wdot w (rfeats.map (rff_features sinf cosf freqs)))) := by
  have hwmem : w ∈ wts := by
    rcases List.getElem?_eq_some.mp hj with ⟨h, rfl⟩
    exact List.getElem_mem h
  have hlin := linear_embedding_getElem feats wts j w hj
  have hrff := linear_embedding_getElem
    (rfeats.map (rff_features sinf cosf freqs)) wts j w hj
  constructor
  · intro hz
    have hall : ∀ x ∈ w, x = 0 := all_zero_of_sum_eq_zero (hw w hwmem) hz
    rw [hz] at hlin hrff
    simp only [if_pos rfl] at hlin hrff
    rw [wdot_eq_zero feats hall] at hlin
    rw [wdot_eq_zero _ hall] at hrff
    exact ⟨hlin, hrff⟩
  · intro hz
    rw [if_neg hz] at hlin hrff
    exact ⟨hlin, hrff⟩

/-- Witness for C4 at a concrete input (the spec's own example: rows
`[1,0]` and `[0,1]` with weights `[2,2]`, plus an all-zero second
query). -/
theorem c4_zero_weight_guard_witness :
    (linear_embedding [(1 : ℚ), 0] [[2, 2], [0, 0]])[1]? = some 0 ∧
    (rff_embedding (fun x => x) (fun x => x)
      [(fun _ => 1 : Fin 1 → ℚ), fun _ => 0] [[2, 2], [0, 0]]
      (fun _ _ => 1 : Fin 1 → Fin 1 → ℚ))[1]? = some 0 :=
  (c4_zero_weight_guard (fun x => x) (fun x => x) [(1 : ℚ), 0]
    [(fun _ => 1 : Fin 1 → ℚ), fun _ => 0] (fun _ _ => 1 : Fin 1 → Fin 1 → ℚ)
    [[2, 2], [0, 0]]
    (by intro a ha x hx; fin_cases ha <;> fin_cases hx <;> norm_num)
    1 [0, 0] (by rfl)).1 (by simp)

/-! ## Claim C8 -/

/-- C8: `rff_embedding` has one output column per query row of the
weight matrix; for a query with nonzero weight sum, the sine half of its
column (`out[:D]`, the first component of the pair) is the weighted mean
of `sinf (features · freqs)` and the cosine half (`out[D:]`) the
weighted mean of `cosf (features · freqs)`; a zero-weight-sum query
column is all zero. -/
theorem c8_rff_structure {f D : ℕ} (sinf cosf : ℚ → ℚ)
    (rfeats : List (Fin f → ℚ)) (freqs : Fin f → Fin D → ℚ)
    (wts : List (List ℚ)) (hw : ∀ w ∈ wts, ∀ x ∈ w, 0 ≤ x) :
    (rff_embedding sinf cosf rfeats wts freqs).length = wts.length ∧
    (∀ (j : ℕ) (w : List ℚ), wts[j]? = some w →
      ∀ p : (Fin D → ℚ) × (Fin D → ℚ),
        (rff_embedding sinf cosf rfeats wts freqs)[j]? = some p →
        (w.sum = 0 → p = 0) ∧
        (w.sum ≠ 0 → ∀ d : Fin D,
          p.1 d = (w.sum)⁻¹ *
            (List.zipWith (fun wi x => wi * sinf (angleAt freqs x d))
              w rfeats).sum ∧
          p.2 d = (w.sum)⁻¹ *
            (List.zipWith (fun wi x => wi * cosf (angleAt freqs x d))
              w rfeats).sum)) := by
  constructor
  · simp [rff_embedding, linear_embedding]
  · intro j w hj p hp
    have hwmem : w ∈ wts := by
      rcases List.getElem?_eq_some.mp hj with ⟨h, rfl⟩
      exact List.getElem_mem h
    have hrff := linear_embedding_getElem
      (rfeats.map (rff_features sinf cosf freqs)) wts j w hj
    rw [rff_embedding] at hp
    rw [hp] at hrff
    constructor
    · intro hz
      have hall : ∀ x ∈ w, x = 0 := all_zero_of_sum_eq_zero (hw w hwmem) hz
      rw [hz, if_pos rfl, wdot_eq_zero _ hall] at hrff
      exact (Option.some_injective _ hrff)
    · intro hz d
      rw [if_neg hz] at hrff
      have hpe : p = (w.sum)⁻¹ •
          wdot w (rfeats.map (rff_features sinf cosf freqs)) :=
        Option.some_injective _ hrff
      constructor
      · rw [hpe, Prod.smul_fst, wdot_map_fst, Pi.smul_apply, smul_eq_mul]
        rw [show (fun b => (rff_features sinf cosf freqs b).1) =
          (fun b => (fun d => sinf (angleAt freqs b d))) from rfl]
        rw [wdot_pi_apply]
      · rw [hpe, Prod.smul_snd, wdot_map_snd, Pi.smul_apply, smul_eq_mul]
        rw [show (fun b => (rff_features sinf cosf freqs b).2) =
          (fun b => (fun d => cosf (angleAt freqs b d))) from rfl]
        rw [wdot_pi_apply]

/-- Witness for C8 at a concrete input. -/
theorem c8_rff_structure_witness :
    (rff_embedding (fun x => x) (fun x => x)
      [(fun _ => 1 : Fin 1 → ℚ), fun _ => 0] [[2, 2], [0, 0]]
      (fun _ _ => 1 : Fin 1 → Fin 1 → ℚ)).length = 2 :=
  (c8_rff_structure (fun x => x) (fun x => x)
    [(fun _ => 1 : Fin 1 → ℚ), fun _ => 0] (fun _ _ => 1 : Fin 1 → Fin 1 → ℚ)
    [[2, 2], [0, 0]]
    (by intro a ha x hx; fin_cases ha <;> fin_cases hx <;> norm_num)).1

/-! ## Claim C2: chunking invariance -/

theorem hackRows_eq {α : Type} (rows : List α) : hackRows rows = rows := by
  by_cases h : rows.length = 1
  · rcases List.length_eq_one.mp h with ⟨a, rfl⟩
    simp [hackRows]
  · simp [hackRows, h]

theorem keptRows_eq {α : Type} (queries : List (α → Bool)) (rows : List α) :
    keptRows queries rows =
      rows.filter (fun r => queries.any (fun θ => θ r)) := by
  rw [keptRows, hackRows_eq]

theorem sum_map_filter_eq {α M : Type} [AddCommMonoid M] (p : α → Bool)
    (g : α → M) (rows : List α)
    (h : ∀ r ∈ rows, p r = false → g r = 0) :
    ((rows.filter p).map g).sum = (rows.map g).sum := by
  induction rows with
  | nil => simp
  | cons a t ih =>
    have ht : ∀ r ∈ t, p r = false → g r = 0 :=
      fun r hr => h r (List.mem_cons_of_mem _ hr)
    by_cases hp : p a
    · rw [List.filter_cons_of_pos hp]
      simp only [List.map_cons, List.sum_cons, ih ht]
    · rw [List.filter_cons_of_neg (by simp [hp])]
      simp only [List.map_cons, List.sum_cons, ih ht]
      rw [h a (List.mem_cons_self a t) (by simp [hp]), zero_add]

theorem map_zipWith_self {α β δ γ : Type} (f : β → δ → γ) (l : List α)
    (g : α → β) (h : α → δ) :
    List.zipWith f (l.map g) (l.map h) = l.map (fun x => f (g x) (h x)) := by
  rw [List.zipWith_map, List.zipWith_same]

theorem qweight_nonneg {α : Type} (wt : α → ℚ) (hw : ∀ r, 0 ≤ wt r)
    (θ : α → Bool) (r : α) : 0 ≤ qweight wt θ r := by
  unfold qweight
  by_cases h : θ r <;> simp [h, hw r]

theorem chunkW_nonneg {α : Type} (wt : α → ℚ) (hw : ∀ r, 0 ≤ wt r)
    (θ : α → Bool) (rows : List α) : 0 ≤ chunkW wt θ rows := by
  apply List.sum_nonneg
  intro x hx
  rcases List.mem_map.mp hx with ⟨r, _, rfl⟩
  exact qweight_nonneg wt hw θ r

theorem chunkS_eq_zero {α V : Type} [AddCommGroup V] [Module ℚ V]
    (wt : α → ℚ) (hw : ∀ r, 0 ≤ wt r) (θ : α → Bool) (e : α → V)
    (rows : List α) (hz : chunkW wt θ rows = 0) :
    chunkS wt θ e rows = 0 := by
  have hall : ∀ x ∈ rows.map (qweight wt θ), x = 0 :=
    all_zero_of_sum_eq_zero
      (fun x hx => by
        rcases List.mem_map.mp hx with ⟨r, _, rfl⟩
        exact qweight_nonneg wt hw θ r) hz
  rw [chunkS]
  apply List.sum_eq_zero
  intro x hx
  rcases List.mem_map.mp hx with ⟨r, hr, rfl⟩
  rw [hall _ (List.mem_map_of_mem _ hr), zero_smul]

theorem wdot_map_eq_chunkS {α V : Type} [AddCommGroup V] [Module ℚ V]
    (wt : α → ℚ) (θ : α → Bool) (e : α → V) (rows : List α) :
    wdot (rows.map (fun r => if θ r then wt r else 0)) (rows.map e) =
      chunkS wt θ e rows := by
  rw [wdot, map_zipWith_self]
  rfl

theorem chunkW_flatten {α : Type} (wt : α → ℚ) (θ : α → Bool)
    (chunks : List (List α)) :
    chunkW wt θ chunks.flatten =
      (chunks.map (fun c => chunkW wt θ c)).sum := by
  rw [chunkW, List.map_flatten, List.sum_flatten, List.map_map]
  rfl

theorem chunkS_flatten {α V : Type} [AddCommGroup V] [Module ℚ V]
    (wt : α → ℚ) (θ : α → Bool) (e : α → V) (chunks : List (List α)) :
    chunkS wt θ e chunks.flatten =
      (chunks.map (fun c => chunkS wt θ e c)).sum := by
  rw [chunkS, List.map_flatten, List.sum_flatten, List.map_map]
  rfl

theorem wts_sum_kept {α : Type} (queries : List (α → Bool)) (wt : α → ℚ)
    (rows : List α) :
    (queries.map (fun θ =>
      (keptRows queries rows).map (fun r => if θ r then wt r else 0))).map
        List.sum =
      queries.map (fun θ => chunkW wt θ rows) := by
  rw [List.map_map]
  apply List.map_congr_left
  intro θ hθ
  show ((keptRows queries rows).map (qweight wt θ)).sum = chunkW wt θ rows
  rw [keptRows_eq, chunkW]
  apply sum_map_filter_eq
  intro r _ hfalse
  have hθr : θ r = false := by
    rcases List.any_eq_false.mp hfalse θ hθ with h
    simpa using h
  simp [qweight, hθr]

theorem linear_embedding_kept {α V : Type} [AddCommGroup V] [Module ℚ V]
    (queries : List (α → Bool)) (wt : α → ℚ) (e : α → V) (rows : List α)
    (hw : ∀ r, 0 ≤ wt r) :
    linear_embedding ((keptRows queries rows).map e)
      (queries.map (fun θ =>
        (keptRows queries rows).map (fun r => if θ r then wt r else 0))) =
      queries.map (fun θ => chunkNorm wt θ e rows) := by
  rw [linear_embedding, List.map_map]
  apply List.map_congr_left
  intro θ hθ
  have hzero : ∀ r ∈ rows,
      (fun r => queries.any (fun θ => θ r)) r = false →
        qweight wt θ r = 0 := by
    intro r _ hfalse
    have hθr : θ r = false := by
      rcases List.any_eq_false.mp hfalse θ hθ with h
      simpa using h
    simp [qweight, hθr]
  have hsum : ((keptRows queries rows).map
      (fun r => if θ r then wt r else 0)).sum = chunkW wt θ rows := by
    rw [keptRows_eq, chunkW]
    exact sum_map_filter_eq _ _ _ hzero
  have hdot : wdot ((keptRows queries rows).map
      (fun r => if θ r then wt r else 0)) ((keptRows queries rows).map e) =
      chunkS wt θ e rows := by
    rw [wdot_map_eq_chunkS, keptRows_eq]
    simp only [chunkS]
    apply sum_map_filter_eq
    intro r hr hfalse
    rw [hzero r hr hfalse, zero_smul]
  show (if ((keptRows queries rows).map
      (fun r => if θ r then wt r else 0)).sum = 0 then _ else _) = _
  rw [hsum, hdot, chunkNorm]
  by_cases hz : chunkW wt θ rows = 0
  · rw [if_pos hz, if_pos hz]
    exact chunkS_eq_zero wt hw θ e rows hz
  · rw [if_neg hz, if_neg hz]

theorem processChunk_some {α V1 V2 : Type} [AddCommGroup V1] [Module ℚ V1]
    [AddCommGroup V2] [Module ℚ V2]
    (queries : List (α → Bool)) (wt : α → ℚ) (enc : α → V1) (φ : α → V2)
    (rows : List α) (hw : ∀ r, 0 ≤ wt r) (p : List V1 × List V2 × List ℚ)
    (hp : processChunk queries wt enc φ rows = some p) :
    p.1 = queries.map (fun θ => chunkNorm wt θ enc rows) ∧
    p.2.1 = queries.map (fun θ => chunkNorm wt θ φ rows) ∧
    p.2.2 = queries.map (fun θ => chunkW wt θ rows) := by
  rw [processChunk] at hp
  by_cases he : (keptRows queries rows).isEmpty
  · simp [he] at hp
  · simp only [he, Bool.false_eq_true, if_false] at hp
    cases hp
    refine ⟨?_, ?_, ?_⟩
    · exact linear_embedding_kept queries wt enc rows hw
    · exact linear_embedding_kept queries wt φ rows hw
    · exact wts_sum_kept queries wt rows

theorem processChunk_none {α V1 V2 : Type} [AddCommGroup V1] [Module ℚ V1]
    [AddCommGroup V2] [Module ℚ V2]
    (queries : List (α → Bool)) (wt : α → ℚ) (enc : α → V1) (φ : α → V2)
    (rows : List α)
    (hp : processChunk queries wt enc φ rows = (none : Option _)) :
    ∀ θ ∈ queries, chunkW wt θ rows = 0 := by
  rw [processChunk] at hp
  by_cases he : (keptRows queries rows).isEmpty
  · intro θ hθ
    have hnil : rows.filter (fun r => queries.any (fun θ => θ r)) = [] := by
      rw [← keptRows_eq]
      exact List.isEmpty_iff.mp he
    have hall : ∀ r ∈ rows, ¬ queries.any (fun θ => θ r) = true :=
      List.filter_eq_nil_iff.mp hnil
    rw [chunkW]
    apply List.sum_eq_zero
    intro x hx
    rcases List.mem_map.mp hx with ⟨r, hr, rfl⟩
    have hθr : θ r = false := by
      rcases List.any_eq_false.mp (Bool.eq_false_iff.mpr (hall r hr)) θ hθ
        with h
      simpa using h
    simp [qweight, hθr]
  · simp [he] at hp

theorem foldl_addCols_char {γ P Q V : Type} [AddCommGroup V] [Module ℚ V]
    (queries : List Q) (pc : γ → Option P) (F : P → List V) (G : γ → Q → V)
    (chunks : List γ)
    (hsome : ∀ c ∈ chunks, ∀ p, pc c = some p → F p = queries.map (G c))
    (hnone : ∀ c ∈ chunks, pc c = none → ∀ θ ∈ queries, G c θ = 0) :
    ∀ f0 : Q → V,
      (chunks.filterMap pc).foldl (fun acc p => addCols acc (F p))
        (queries.map f0) =
      queries.map (fun θ => f0 θ + (chunks.map (fun c => G c θ)).sum) := by
  induction chunks with
  | nil =>
    intro f0
    simp
  | cons c rest ih =>
    have hsr : ∀ c' ∈ rest, ∀ p, pc c' = some p → F p = queries.map (G c') :=
      fun c' hc' => hsome c' (List.mem_cons_of_mem _ hc')
    have hnr : ∀ c' ∈ rest, pc c' = none → ∀ θ ∈ queries, G c' θ = 0 :=
      fun c' hc' => hnone c' (List.mem_cons_of_mem _ hc')
    intro f0
    rcases hc : pc c with _ | p
    · rw [List.filterMap_cons_none hc, ih hsr hnr f0]
      apply List.map_congr_left
      intro θ hθ
      rw [List.map_cons, List.sum_cons,
        hnone c (List.mem_cons_self c rest) hc θ hθ, zero_add]
    · rw [List.filterMap_cons_some hc, List.foldl_cons,
        hsome c (List.mem_cons_self c rest) p hc,
        show addCols (queries.map f0) (queries.map (G c)) =
          queries.map (fun θ => f0 θ + G c θ) from
            map_zipWith_self _ _ _ _,
        ih hsr hnr (fun θ => f0 θ + G c θ)]
      apply List.map_congr_left
      intro θ _
      rw [List.map_cons, List.sum_cons, add_assoc]

theorem replicate_len_eq_map {α V : Type} (queries : List α) (z : V) :
    List.replicate queries.length z = queries.map (fun _ => z) := by
  rw [← List.map_const]
  rfl

theorem file_embedding_char {α V1 V2 : Type} [AddCommGroup V1] [Module ℚ V1]
    [AddCommGroup V2] [Module ℚ V2]
    (queries : List (α → Bool)) (wt : α → ℚ) (enc : α → V1) (φ : α → V2)
    (chunks : List (List α)) (hw : ∀ r, 0 ≤ wt r) :
    file_embedding queries wt enc φ chunks =
      (queries.map (fun θ => (chunks.map (fun c =>
          (if (chunks.map (fun d => chunkW wt θ d)).sum = 0 then chunkW wt θ c
            else chunkW wt θ c / (chunks.map (fun d => chunkW wt θ d)).sum) •
            chunkNorm wt θ enc c)).sum),
        queries.map (fun θ => (chunks.map (fun c =>
          (if (chunks.map (fun d => chunkW wt θ d)).sum = 0 then chunkW wt θ c
            else chunkW wt θ c / (chunks.map (fun d => chunkW wt θ d)).sum) •
            chunkNorm wt θ φ c)).sum),
        queries.map (fun θ => (chunks.map (fun d => chunkW wt θ d)).sum)) := by
  have hW : ∀ c ∈ chunks, ∀ p,
      processChunk queries wt enc φ c = some p →
        p.2.2 = queries.map (fun θ => chunkW wt θ c) :=
    fun c _ p hp => (processChunk_some queries wt enc φ c hw p hp).2.2
  have hWn : ∀ c ∈ chunks, processChunk queries wt enc φ c = none →
      ∀ θ ∈ queries, chunkW wt θ c = 0 :=
    fun c _ hp => processChunk_none queries wt enc φ c hp
  simp only [file_embedding]
  have htot : (chunks.filterMap (processChunk queries wt enc φ)).foldl
      (fun acc p => addCols acc p.2.2)
      (List.replicate queries.length (0 : ℚ)) =
      queries.map (fun θ => (chunks.map (fun d => chunkW wt θ d)).sum) := by
    rw [replicate_len_eq_map,
      foldl_addCols_char queries (processChunk queries wt enc φ)
        (fun p => p.2.2) (fun c θ => chunkW wt θ c) chunks hW hWn
        (fun _ => 0)]
    apply List.map_congr_left
    intro θ _
    rw [zero_add]
  rw [htot]
  have hlin : (chunks.filterMap (processChunk queries wt enc φ)).foldl
      (fun acc p => addCols acc (scaleCols (chunkRatios
        (queries.map (fun θ => (chunks.map (fun d => chunkW wt θ d)).sum))
        p.2.2) p.1))
      (List.replicate queries.length (0 : V1)) =
      queries.map (fun θ => (chunks.map (fun c =>
        (if (chunks.map (fun d => chunkW wt θ d)).sum = 0 then chunkW wt θ c
          else chunkW wt θ c / (chunks.map (fun d => chunkW wt θ d)).sum) •
          chunkNorm wt θ enc c)).sum) := by
    rw [replicate_len_eq_map,
      foldl_addCols_char queries (processChunk queries wt enc φ)
        (fun p => scaleCols (chunkRatios
          (queries.map (fun θ => (chunks.map (fun d => chunkW wt θ d)).sum))
          p.2.2) p.1)
        (fun c θ =>
          (if (chunks.map (fun d => chunkW wt θ d)).sum = 0 then chunkW wt θ c
            else chunkW wt θ c /
              (chunks.map (fun d => chunkW wt θ d)).sum) •
            chunkNorm wt θ enc c)
        chunks
        (by
          intro c hc p hp
          dsimp only
          rcases processChunk_some queries wt enc φ c hw p hp with
            ⟨h1, _, h3⟩
          rw [h1, h3, chunkRatios, map_zipWith_self, scaleCols,
            map_zipWith_self])
        (by
          intro c hc hp θ hθ
          dsimp only
          rw [chunkNorm, if_pos (hWn c hc hp θ hθ), smul_zero])
        (fun _ => 0)]
    apply List.map_congr_left
    intro θ _
    rw [zero_add]
  have hrff : (chunks.filterMap (processChunk queries wt enc φ)).foldl
      (fun acc p => addCols acc (scaleCols (chunkRatios
        (queries.map (fun θ => (chunks.map (fun d => chunkW wt θ d)).sum))
        p.2.2) p.2.1))
      (List.replicate queries.length (0 : V2)) =
      queries.map (fun θ => (chunks.map (fun c =>
        (if (chunks.map (fun d => chunkW wt θ d)).sum = 0 then chunkW wt θ c
          else chunkW wt θ c / (chunks.map (fun d => chunkW wt θ d)).sum) •
          chunkNorm wt θ φ c)).sum) := by
    rw [replicate_len_eq_map,
      foldl_addCols_char queries (processChunk queries wt enc φ)
        (fun p => scaleCols (chunkRatios
          (queries.map (fun θ => (chunks.map (fun d => chunkW wt θ d)).sum))
          p.2.2) p.2.1)
        (fun c θ =>
          (if (chunks.map (fun d => chunkW wt θ d)).sum = 0 then chunkW wt θ c
            else chunkW wt θ c /
              (chunks.map (fun d => chunkW wt θ d)).sum) •
            chunkNorm wt θ φ c)
        chunks
        (by
          intro c hc p hp
          dsimp only
          rcases processChunk_some queries wt enc φ c hw p hp with
            ⟨_, h2, h3⟩
          rw [h2, h3, chunkRatios, map_zipWith_self, scaleCols,
            map_zipWith_self])
        (by
          intro c hc hp θ hθ
          dsimp only
          rw [chunkNorm, if_pos (hWn c hc hp θ hθ), smul_zero])
        (fun _ => 0)]
    apply List.map_congr_left
    intro θ _
    rw [zero_add]
  rw [hlin, hrff]

theorem combined_piece_eq {α V : Type} [AddCommGroup V] [Module ℚ V]
    (wt : α → ℚ) (hw : ∀ r, 0 ≤ wt r) (θ : α → Bool) (e : α → V)
    (chunks : List (List α)) :
    (chunks.map (fun c =>
      (if (chunks.map (fun d => chunkW wt θ d)).sum = 0 then chunkW wt θ c
        else chunkW wt θ c / (chunks.map (fun d => chunkW wt θ d)).sum) •
        chunkNorm wt θ e c)).sum =
      chunkNorm wt θ e chunks.flatten := by
  set T := (chunks.map (fun d => chunkW wt θ d)).sum with hT
  have hTflat : chunkW wt θ chunks.flatten = T := chunkW_flatten wt θ chunks
  by_cases hz : T = 0
  · have hallW : ∀ c ∈ chunks, chunkW wt θ c = 0 := by
      intro c hc
      have := all_zero_of_sum_eq_zero
        (fun x hx => by
          rcases List.mem_map.mp hx with ⟨d, _, rfl⟩
          exact chunkW_nonneg wt hw θ d) (hT ▸ hz)
      exact this _ (List.mem_map_of_mem _ hc)
    rw [chunkNorm, hTflat, if_pos hz]
    apply List.sum_eq_zero
    intro x hx
    rcases List.mem_map.mp hx with ⟨c, hc, rfl⟩
    rw [chunkNorm, if_pos (hallW c hc), smul_zero]
  · have hstep : ∀ c ∈ chunks,
        (if T = 0 then chunkW wt θ c else chunkW wt θ c / T) •
          chunkNorm wt θ e c = T⁻¹ • chunkS wt θ e c := by
      intro c hc
      rw [if_neg hz, chunkNorm]
      by_cases hWc : chunkW wt θ c = 0
      · rw [if_pos hWc, hWc, smul_zero, chunkS_eq_zero wt hw θ e c hWc,
          smul_zero]
      · rw [if_neg hWc, smul_smul]
        congr 1
        field_simp
        ring
    rw [List.map_congr_left hstep, chunkNorm, hTflat, if_neg hz,
      chunkS_flatten,
      show (chunks.map (fun c => T⁻¹ • chunkS wt θ e c)) =
        ((chunks.map (fun c => chunkS wt θ e c)).map
          (fun x => T⁻¹ • x)) from (List.map_map _ _ _).symm,
      ← List.smul_sum]

/-- C2: splitting a file's records into chunks of any sizes and
recombining the per-chunk linear and RFF embedding pieces by the
contribution-ratio-weighted sum gives exactly (the arithmetic is over
`ℚ`) the same final linear embedding, RFF embedding, and region weights
as processing the whole file as a single chunk.  `enc` is the encoded
feature row of a record and `φ` its paired sine/cosine RFF feature row;
the only hypothesis is that the replicate weights are non-negative. -/
theorem c2_chunksize_invariance {α V1 V2 : Type} [AddCommGroup V1]
    [Module ℚ V1] [AddCommGroup V2] [Module ℚ V2]
    (queries : List (α → Bool)) (wt : α → ℚ) (enc : α → V1) (φ : α → V2)
    (chunks : List (List α)) (hw : ∀ r, 0 ≤ wt r) :
    file_embedding queries wt enc φ chunks =
      file_embedding queries wt enc φ [chunks.flatten] := by
  rw [file_embedding_char queries wt enc φ chunks hw,
    file_embedding_char queries wt enc φ [chunks.flatten] hw]
  have hflat : ([chunks.flatten] : List (List α)).flatten = chunks.flatten := by
    simp
  refine congrArg₂ Prod.mk ?_ (congrArg₂ Prod.mk ?_ ?_)
  · apply List.map_congr_left
    intro θ _
    rw [combined_piece_eq wt hw θ enc chunks,
      combined_piece_eq wt hw θ enc [chunks.flatten], hflat]
  · apply List.map_congr_left
    intro θ _
    rw [combined_piece_eq wt hw θ φ chunks,
      combined_piece_eq wt hw θ φ [chunks.flatten], hflat]
  · apply List.map_congr_left
    intro θ _
    rw [← chunkW_flatten, ← chunkW_flatten, hflat]

/-- Witness for C2 at a concrete input: three chunks versus the flat
file, with two queries. -/
theorem c2_chunksize_invariance_witness :
    file_embedding ([fun n => decide (n % 2 = 0), fun n => decide (2 < n)] :
        List (ℕ → Bool)) (fun n => (n : ℚ))
      (fun n => (n : ℚ) + 1) (fun n => (n : ℚ) * 2) [[1, 2], [3], [4, 5, 6]] =
      file_embedding ([fun n => decide (n % 2 = 0), fun n => decide (2 < n)] :
          List (ℕ → Bool)) (fun n => (n : ℚ))
        (fun n => (n : ℚ) + 1) (fun n => (n : ℚ) * 2)
        [([[1, 2], [3], [4, 5, 6]] : List (List ℕ)).flatten] :=
  c2_chunksize_invariance
    ([fun n => decide (n % 2 = 0), fun n => decide (2 < n)] : List (ℕ → Bool))
    (fun n => (n : ℚ)) (fun n => (n : ℚ) + 1) (fun n => (n : ℚ) * 2)
    [[1, 2], [3], [4, 5, 6]] (fun n => Nat.cast_nonneg n)

/-! ## Claim C1: column count determinism -/

theorem optMap_eq_some_map {α β : Type} (f : α → Option β) (g : α → β)
    (l : List α) (h : ∀ x ∈ l, f x = some (g x)) :
    optMap f l = some (l.map g) := by
  induction l with
  | nil => rfl
  | cons a t ih =>
    rw [optMap, h a (List.mem_cons_self a t),
      ih (fun x hx => h x (List.mem_cons_of_mem _ hx))]
    rfl

theorem optMap_forall2 {α β : Type} (f : α → Option β) :
    ∀ (l : List α) (bs : List β), optMap f l = some bs →
      List.Forall₂ (fun a b => f a = some b) l bs := by
  intro l
  induction l with
  | nil =>
    intro bs h
    rw [optMap] at h
    cases h
    exact List.Forall₂.nil
  | cons a t ih =>
    intro bs h
    rw [optMap] at h
    rcases Option.bind_eq_some.mp h with ⟨b, hb, h2⟩
    rcases Option.map_eq_some'.mp h2 with ⟨ts, hts, h3⟩
    cases h3
    exact List.Forall₂.cons hb (ih ts hts)

theorem forall2_map_eq {α β γ : Type} {R : α → β → Prop} {l : List α}
    {bs : List β} (h : List.Forall₂ R l bs) (gB : β → γ) (gA : α → γ)
    (hg : ∀ a b, R a b → gB b = gA a) : bs.map gB = l.map gA := by
  induction h with
  | nil => rfl
  | cons hr _ ih => simp only [List.map_cons, hg _ _ hr, ih]

theorem optMap_exists_of_mem {α β : Type} (f : α → Option β) :
    ∀ {l : List α} {bs : List β}, optMap f l = some bs →
      ∀ {b : β}, b ∈ bs → ∃ a ∈ l, f a = some b := by
  intro l
  induction l with
  | nil =>
    intro bs h b hb
    rw [optMap] at h
    cases h
    cases hb
  | cons a t ih =>
    intro bs h b hb
    rw [optMap] at h
    rcases Option.bind_eq_some.mp h with ⟨b0, hb0, h2⟩
    rcases Option.map_eq_some'.mp h2 with ⟨ts, hts, h3⟩
    cases h3
    rcases List.mem_cons.mp hb with rfl | hmem
    · exact ⟨a, List.mem_cons_self a t, hb0⟩
    · rcases ih hts hmem with ⟨a2, ha2, he⟩
      exact ⟨a2, List.mem_cons_of_mem _ ha2, he⟩

theorem bcastVals_length {vals : List FVal} {n : ℕ} {l : List FVal}
    (h : bcastVals vals n = some l) : l.length = n := by
  rw [bcastVals] at h
  by_cases h1 : vals.length = n
  · rw [if_pos h1] at h
    cases h
    exact h1
  · rw [if_neg h1] at h
    by_cases h2 : vals.length = 1
    · rw [if_pos h2] at h
      cases h
      exact List.length_replicate n _
    · rw [if_neg h2] at h
      cases h

theorem oneHot_length (n i : ℕ) : (oneHot n i).length = n := by
  simp [oneHot]

theorem discreteBlock_length {vc : List (FVal × ℕ)} {nt : ℕ} {v : FVal}
    {b : List FVal} (h : discreteBlock vc nt v = some b) :
    b.length = vc.length +
      (if (vc.map (fun cv => cv.2)).sum < nt then 1 else 0) := by
  simp only [discreteBlock] at h
  by_cases ho : (vc.map (fun cv => cv.2)).sum < nt
  · rw [if_pos ho] at h
    cases h
    rw [if_pos ho, oneHot_length]
  · rw [if_neg ho] at h
    rw [if_neg ho, Nat.add_zero]
    rcases hc : catCode (vc.map (fun cv => cv.1)) v with _ | i
    · simp only [hc] at h
      by_cases hn : vc.length = 0
      · rw [if_pos hn] at h
        cases h
      · rw [if_neg hn] at h
        cases h
        exact oneHot_length _ _
    · simp only [hc] at h
      cases h
      exact oneHot_length _ _

theorem vcLookup_isSome_of_mem {vcs : List (String × List (FVal × ℕ))}
    {k : String} (h : k ∈ vcs.map Prod.fst) :
    ∃ vc, vcLookup vcs k = some vc := by
  rcases List.mem_map.mp h with ⟨kv, hkv, rfl⟩
  have hs : (vcs.find? (fun kv2 => kv2.1 = kv.1)).isSome := by
    rw [List.find?_isSome]
    exact ⟨kv, hkv, by simp⟩
  rcases Option.isSome_iff_exists.mp hs with ⟨kv2, hkv2⟩
  exact ⟨kv2.2, by rw [vcLookup, hkv2]; rfl⟩

theorem vcLookup_of_nodup_mem {vcs : List (String × List (FVal × ℕ))}
    (hnd : (vcs.map Prod.fst).Nodup) {kv : String × List (FVal × ℕ)}
    (hkv : kv ∈ vcs) : vcLookup vcs kv.1 = some kv.2 := by
  induction vcs with
  | nil => cases hkv
  | cons hd t ih =>
    rw [List.map_cons, List.nodup_cons] at hnd
    rcases List.mem_cons.mp hkv with rfl | hmem
    · rw [vcLookup, List.find?_cons_of_pos _ (by simp)]
      rfl
    · have hne : ¬ hd.1 = kv.1 := by
        intro he
        exact hnd.1 (he ▸ List.mem_map_of_mem Prod.fst hmem)
      rw [vcLookup, List.find?_cons_of_neg _ (by simp [hne])]
      exact ih hnd.2 hmem

theorem featWidth_eq_widthFn {stats : Stats} {info : SchemaInfo}
    {skip : List String}
    (h6 : ∀ k, k ∈ stats.value_counts.map Prod.fst ↔
      k ∈ info.discrete_feats ++ info.alloc_flags) :
    ∀ k ∈ keptDisc info skip, featWidth stats k = some (widthFn stats k) := by
  intro k hk
  have hk2 : k ∈ info.discrete_feats ++ info.alloc_flags :=
    (List.mem_filter.mp hk).1
  rcases vcLookup_isSome_of_mem ((h6 k).mpr hk2) with ⟨vc, hvc⟩
  rw [featWidth, widthFn, hvc]
  rfl

theorem keptDisc_perm_keys {stats : Stats} {info : SchemaInfo}
    (skip : List String)
    (h4 : (stats.value_counts.map Prod.fst).Nodup)
    (h5 : (info.discrete_feats ++ info.alloc_flags).Nodup)
    (h6 : ∀ k, k ∈ stats.value_counts.map Prod.fst ↔
      k ∈ info.discrete_feats ++ info.alloc_flags) :
    (keptDisc info skip).Perm
      ((stats.value_counts.map Prod.fst).filter (fun k => ¬ k ∈ skip)) := by
  rw [keptDisc, List.perm_ext_iff_of_nodup (h5.filter _) (h4.filter _)]
  intro a
  simp only [List.mem_filter]
  constructor
  · rintro ⟨ha, hs⟩
    exact ⟨(h6 a).mpr ha, hs⟩
  · rintro ⟨ha, hs⟩
    exact ⟨(h6 a).mp ha, hs⟩

theorem vc_filtered_sum_eq {stats : Stats} (skip : List String)
    (h4 : (stats.value_counts.map Prod.fst).Nodup) :
    ((stats.value_counts.filter (fun kv => ¬ kv.1 ∈ skip)).map (fun kv =>
      kv.2.length +
        (if (kv.2.map (fun cv => cv.2)).sum < stats.n_total then 1
          else 0))).sum =
    (((stats.value_counts.map Prod.fst).filter (fun k => ¬ k ∈ skip)).map
      (widthFn stats)).sum := by
  have hstep : (stats.value_counts.filter (fun kv => ¬ kv.1 ∈ skip)).map
      (fun kv => kv.2.length +
        (if (kv.2.map (fun cv => cv.2)).sum < stats.n_total then 1
          else 0)) =
      (stats.value_counts.filter (fun kv => ¬ kv.1 ∈ skip)).map
        (fun kv => widthFn stats kv.1) := by
    apply List.map_congr_left
    intro kv hkv
    rw [widthFn, vcLookup_of_nodup_mem h4 (List.mem_filter.mp hkv).1]
  have hcomm : (stats.value_counts.filter (fun kv => ¬ kv.1 ∈ skip)).map
      Prod.fst =
      (stats.value_counts.map Prod.fst).filter (fun k => ¬ k ∈ skip) := by
    rw [List.filter_map]
    rfl
  rw [hstep, ← hcomm, List.map_map]
  rfl

theorem keptReal_length_eq {stats : Stats} {info : SchemaInfo}
    (skip : List String)
    (h1 : (stats.real_means.map Prod.fst).Nodup) (h2 : info.real_feats.Nodup)
    (h3 : ∀ k, k ∈ stats.real_means.map Prod.fst ↔ k ∈ info.real_feats) :
    (keptReal info skip).length =
      ((stats.real_means.map Prod.fst).toFinset \ skip.toFinset).card := by
  have hfin : (stats.real_means.map Prod.fst).toFinset =
      info.real_feats.toFinset := by
    apply Finset.ext
    intro x
    simp only [List.mem_toFinset]
    exact h3 x
  rw [hfin, Finset.sdiff_eq_filter, keptReal,
    ← List.toFinset_card_of_nodup (h2.filter _), List.toFinset_filter]
  congr 1
  apply Finset.filter_congr
  intro x _
  simp [List.mem_toFinset]

/-- C1: for a well-formed `StatsBundle` (the schema's lists have no
duplicate names, `real_means` is indexed by exactly the schema's real
features, and `value_counts` has exactly the schema's discrete and
allocation-flag features as keys) and for every skip-set, the encoder's
final column cursor (`producedWidth`) equals `_num_feats`, so the
fail-fast `assert start_col == num_feats` never fires; and every row
`get_dummies` actually produces, for any batch and any `num_feats`
argument, has exactly `_num_feats` columns. -/
theorem c1_num_feats_consistent (stats : Stats) (info : SchemaInfo)
    (skip : List String)
    (h1 : (stats.real_means.map Prod.fst).Nodup)
    (h2 : info.real_feats.Nodup)
    (h3 : ∀ k, k ∈ stats.real_means.map Prod.fst ↔ k ∈ info.real_feats)
    (h4 : (stats.value_counts.map Prod.fst).Nodup)
    (h5 : (info.discrete_feats ++ info.alloc_flags).Nodup)
    (h6 : ∀ k, k ∈ stats.value_counts.map Prod.fst ↔
      k ∈ info.discrete_feats ++ info.alloc_flags) :
    producedWidth stats info skip = some (_num_feats stats skip) ∧
    (∀ (df : List Record) (nf : Option ℕ) (M : List (List FVal))
      (names : List String),
      get_dummies df stats info nf skip = some (M, names) →
      ∀ row ∈ M, row.length = _num_feats stats skip) := by
  have hwidths : optMap (featWidth stats) (keptDisc info skip) =
      some ((keptDisc info skip).map (widthFn stats)) :=
    optMap_eq_some_map _ _ _ (featWidth_eq_widthFn h6)
  have hsum : ((keptDisc info skip).map (widthFn stats)).sum =
      ((stats.value_counts.filter (fun kv => ¬ kv.1 ∈ skip)).map (fun kv =>
        kv.2.length +
          (if (kv.2.map (fun cv => cv.2)).sum < stats.n_total then 1
            else 0))).sum := by
    rw [vc_filtered_sum_eq skip h4]
    exact ((keptDisc_perm_keys skip h4 h5 h6).map (widthFn stats)).sum_eq
  have hA : producedWidth stats info skip =
      some (_num_feats stats skip) := by
    rw [producedWidth, hwidths, Option.map_some', _num_feats,
      keptReal_length_eq skip h1 h2 h3, hsum]
  refine ⟨hA, ?_⟩
  intro df nf M names hgd
  rw [get_dummies] at hgd
  rcases Option.bind_eq_some.mp hgd with ⟨means, hmeans, hgd⟩
  rcases Option.bind_eq_some.mp hgd with ⟨stds, hstds, hgd⟩
  rcases Option.bind_eq_some.mp hgd with ⟨rows, hrows, hgd⟩
  rcases Option.bind_eq_some.mp hgd with ⟨nms, hnms, hgd⟩
  rcases Option.bind_eq_some.mp hgd with ⟨w, hw, hgd⟩
  have hwval : w = _num_feats stats skip := by
    rw [hA] at hw
    exact (Option.some_injective _ hw).symm
  have hrowsM : rows = M := by
    by_cases hcond : w = nf.getD (_num_feats stats skip)
    · rw [if_pos hcond] at hgd
      exact congrArg Prod.fst (Option.some_injective _ hgd)
    · rw [if_neg hcond] at hgd
      cases hgd
  intro row hrow
  rw [← hrowsM] at hrow
  rcases optMap_exists_of_mem _ hrows hrow with ⟨r, _, hrw⟩
  rcases Option.map_eq_some'.mp hrw with ⟨blocks, hblocks, hrow_eq⟩
  rw [discRow] at hblocks
  rcases Option.map_eq_some'.mp hblocks with ⟨bl, hbl, hfl⟩
  have hf2 := optMap_forall2 _ (keptDisc info skip) bl hbl
  have hlens : bl.map List.length = (keptDisc info skip).map
      (widthFn stats) := by
    apply forall2_map_eq hf2
    intro k b hkb
    rcases Option.bind_eq_some.mp hkb with ⟨vc, hvc, hdb⟩
    rw [discreteBlock_length hdb, widthFn, hvc]
  have hreal_len : (realRow (keptReal info skip) means stds r).length =
      (keptReal info skip).length := by
    rw [realRow, List.length_zipWith, List.length_zip,
      bcastVals_length hmeans, bcastVals_length hstds]
    simp
  rw [← hrow_eq, List.length_append, hreal_len, ← hfl,
    List.length_flatten, hlens, hsum]
  rw [_num_feats, keptReal_length_eq skip h1 h2 h3]

/-- Witness for C1 at a concrete stats bundle (one real feature, one
discrete feature with an overflow column, one skipped feature). -/
theorem c1_num_feats_consistent_witness :
    producedWidth
      { real_means := [("X", FVal.fin 0)], real_stds := [("X", FVal.fin 1)],
        value_counts := [("D", [(FVal.fin 0, 1)]), ("A", [(FVal.fin 1, 2)])],
        n_total := 2, sample := [] }
      { real_feats := ["X"], discrete_feats := ["D"], alloc_flags := ["A"] }
      ["A"] =
    some (_num_feats
      { real_means := [("X", FVal.fin 0)], real_stds := [("X", FVal.fin 1)],
        value_counts := [("D", [(FVal.fin 0, 1)]), ("A", [(FVal.fin 1, 2)])],
        n_total := 2, sample := [] } ["A"]) :=
  (c1_num_feats_consistent
    { real_means := [("X", FVal.fin 0)], real_stds := [("X", FVal.fin 1)],
      value_counts := [("D", [(FVal.fin 0, 1)]), ("A", [(FVal.fin 1, 2)])],
      n_total := 2, sample := [] }
    { real_feats := ["X"], discrete_feats := ["D"], alloc_flags := ["A"] }
    ["A"] (by decide) (by decide) (fun k => Iff.rfl) (by decide) (by decide)
    (fun k => Iff.rfl)).1

/-! ## Claim C3: one-hot encoding with unseen categories -/

theorem feq_true_iff (v c : FVal) : v.feq c = true ↔ v = c ∧ v ≠ FVal.nan := by
  cases v <;> cases c <;> simp [FVal.feq]

theorem catCode_of_nodup {cats : List FVal} (hnd : cats.Nodup) :
    ∀ {i : ℕ} {v : FVal}, cats[i]? = some v → v ≠ FVal.nan →
      catCode cats v = some i := by
  induction cats with
  | nil =>
    intro i v hv _
    cases hv
  | cons c t ih =>
    intro i v hv hvn
    rw [List.nodup_cons] at hnd
    cases i with
    | zero =>
      rw [List.getElem?_cons_zero] at hv
      cases hv
      rw [catCode, if_pos ((feq_true_iff c c).mpr ⟨rfl, hvn⟩)]
    | succ n =>
      rw [List.getElem?_cons_succ] at hv
      have hvt : v ∈ t := by
        rcases List.getElem?_eq_some.mp hv with ⟨h, rfl⟩
        exact List.getElem_mem h
      have hne : ¬ v.feq c = true := by
        intro hf
        rcases (feq_true_iff v c).mp hf with ⟨rfl, _⟩
        exact hnd.1 hvt
      rw [catCode, if_neg hne, ih hnd.2 hv hvn]
      rfl

/-- Counterexample to C3 as stated: one discrete feature `D` whose
stored category counts sum to `n_total` (no overflow column), and a
record with the unseen value `5`.  The claim says the block should be
all zeros; the code produces `[1]` — a one-hot at the last stored
category — because `np.take` resolves the pandas missing-code `-1` to
the last row of the identity matrix. -/
theorem c3_one_hot_counterexample :
    get_dummies [(fun _ => FVal.fin 5 : Record)]
      { real_means := [], real_stds := [],
        value_counts := [("D", [(FVal.fin 0, 2)])], n_total := 2,
        sample := [] }
      { real_feats := [], discrete_feats := ["D"], alloc_flags := [] }
      none [] =
      some ([[FVal.fin 1]], ["D_0"]) ∧ FVal.fin 1 ≠ FVal.fin 0 := by
  exact ⟨by decide, by decide⟩

/-- C3 (amended): for a kept discrete/allocation feature, the per-record
block `get_dummies` writes (`discreteBlock`, applied by `discRow` for
each kept feature) is one-hot at position `i` when the value matches the
`i`-th stored category (a non-NaN value equal to the `i`-th category of
a duplicate-free index yields code `i`); an unseen or missing value is
one-hot at the overflow column when the stored counts under-cover
`n_total`; but when there is no overflow column the value is NOT
dropped: the block is one-hot at the LAST stored category
(position `n_codes - 1`), and when additionally there are zero stored
categories the encoder raises instead of writing anything. -/
theorem c3_one_hot_amended (vc : List (FVal × ℕ)) (nt : ℕ) (v : FVal) :
    (∀ i : ℕ, catCode (vc.map (fun cv => cv.1)) v = some i →
      discreteBlock vc nt v = some (oneHot (vc.length +
        (if (vc.map (fun cv => cv.2)).sum < nt then 1 else 0)) i)) ∧
    ((vc.map (fun cv => cv.1)).Nodup → ∀ i : ℕ,
      (vc.map (fun cv => cv.1))[i]? = some v → v ≠ FVal.nan →
      catCode (vc.map (fun cv => cv.1)) v = some i) ∧
    (catCode (vc.map (fun cv => cv.1)) v = none →
      (vc.map (fun cv => cv.2)).sum < nt →
      discreteBlock vc nt v = some (oneHot (vc.length + 1) vc.length)) ∧
    (catCode (vc.map (fun cv => cv.1)) v = none →
      ¬ (vc.map (fun cv => cv.2)).sum < nt →
      (0 < vc.length →
        discreteBlock vc nt v = some (oneHot vc.length (vc.length - 1))) ∧
      (vc.length = 0 → discreteBlock vc nt v = none)) := by
  refine ⟨?_, ?_, ?_, ?_⟩
  · intro i hi
    simp only [discreteBlock]
    by_cases ho : (vc.map (fun cv => cv.2)).sum < nt
    · rw [if_pos ho, if_pos ho, hi]
      rfl
    · rw [if_neg ho, if_neg ho, hi, Nat.add_zero]
  · intro hnd i hv hvn
    exact catCode_of_nodup hnd hv hvn
  · intro hc ho
    simp only [discreteBlock]
    rw [if_pos ho, hc]
    rfl
  · intro hc ho
    constructor
    · intro hpos
      simp only [discreteBlock]
      rw [if_neg ho, hc]
      rw [if_neg (Nat.pos_iff_ne_zero.mp hpos)]
    · intro hz
      simp only [discreteBlock]
      rw [if_neg ho, hc, if_pos hz]

/-- Witness for the amended C3 at a concrete input: the value `7` is the
second stored category, so the block is one-hot at position `1`. -/
theorem c3_one_hot_amended_witness :
    discreteBlock [(FVal.fin 0, 1), (FVal.fin 7, 1)] 2 (FVal.fin 7) =
      some (oneHot
        (([(FVal.fin 0, 1), (FVal.fin 7, 1)] : List (FVal × ℕ)).length +
          (if (([(FVal.fin 0, 1), (FVal.fin 7, 1)] : List (FVal × ℕ)).map
            (fun cv => cv.2)).sum < 2 then 1 else 0)) 1) :=
  (c3_one_hot_amended [(FVal.fin 0, 1), (FVal.fin 7, 1)] 2 (FVal.fin 7)).1
    1 (by decide)

/-! ## Claim C6: real-feature standardization -/

/-- Counterexample to C6 as stated: one real feature `X` with stored
mean `0` and stored standard deviation `0`, and a record with value `1`.
Standardization computes `(1 - 0) / 0 = +Inf`; the claim says every
non-finite result is replaced by `0`, but the code's mask is
`np.isnan`, which is false on infinities, so the encoded matrix contains
`+Inf`. -/
theorem c6_nonfinite_counterexample :
    get_dummies [(fun _ => FVal.fin 1 : Record)]
      { real_means := [("X", FVal.fin 0)], real_stds := [("X", FVal.fin 0)],
        value_counts := [], n_total := 1, sample := [] }
      { real_feats := ["X"], discrete_feats := [], alloc_flags := [] }
      none [] =
      some ([[FVal.pinf]], ["X"]) ∧ FVal.pinf ≠ FVal.fin 0 := by
  have hsub : FVal.fsub (FVal.fin 1) (FVal.fin 0) = FVal.fin 1 := by
    rw [FVal.fsub]
    norm_num
  have hdiv : FVal.fdiv (FVal.fin 1) (FVal.fin 0) = FVal.pinf := by
    rw [FVal.fdiv]
    norm_num
  have hstd : standardize (FVal.fin 1) (FVal.fin 0) (FVal.fin 0) =
      FVal.pinf := by
    rw [standardize, hsub, hdiv]
    decide
  refine ⟨?_, by decide⟩
  simp only [get_dummies, keptReal, keptDisc, bcastVals, optMap, discRow,
    realRow, featNamesOf, producedWidth, _num_feats]
  norm_num [hstd, List.zipWith, vcLookup]

/-- C6 (amended): the encoder standardizes each kept real cell as
`(value - mean) / std` (`standardize`, applied positionally by
`realRow`), and replaces NaN results — and only NaN results — with `0`:
the output is never NaN (in particular a missing value becomes `0`
whatever the stored mean and std are), a finite value with nonzero std
standardizes exactly, but a value different from the mean with a zero
stored std produces a surviving `±Inf`, which is not replaced. -/
theorem c6_standardize_amended :
    (∀ v m s : FVal, standardize v m s ≠ FVal.nan) ∧
    (∀ q m s : ℚ, s ≠ 0 →
      standardize (FVal.fin q) (FVal.fin m) (FVal.fin s) =
        FVal.fin ((q - m) / s)) ∧
    (∀ m s : FVal, standardize FVal.nan m s = FVal.fin 0) ∧
    (∀ q m : ℚ, m < q →
      standardize (FVal.fin q) (FVal.fin m) (FVal.fin 0) = FVal.pinf) ∧
    (∀ q m : ℚ, q < m →
      standardize (FVal.fin q) (FVal.fin m) (FVal.fin 0) = FVal.ninf) := by
  refine ⟨?_, ?_, ?_, ?_, ?_⟩
  · intro v m s
    rw [standardize, FVal.nanToZero]
    by_cases h : (v.fsub m).fdiv s = FVal.nan
    · rw [if_pos h]
      decide
    · rw [if_neg h]
      exact h
  · intro q m s hs
    rw [standardize, FVal.fsub, FVal.fdiv, if_neg hs, FVal.nanToZero,
      if_neg (fun h => FVal.noConfusion h)]
  · intro m s
    have hsub : FVal.fsub FVal.nan m = FVal.nan := by
      cases m <;> rfl
    have hdiv : FVal.fdiv FVal.nan s = FVal.nan := by
      cases s <;> rfl
    rw [standardize, hsub, hdiv, FVal.nanToZero, if_pos rfl]
  · intro q m hlt
    have hne : ¬ q - m = 0 := sub_ne_zero.mpr (ne_of_gt hlt)
    rw [standardize, FVal.fsub, FVal.fdiv, if_pos rfl, if_neg hne,
      if_pos (sub_pos.mpr hlt), FVal.nanToZero, if_neg (by decide)]
  · intro q m hlt
    have hne : ¬ q - m = 0 := ne_of_lt (sub_neg.mpr hlt)
    rw [standardize, FVal.fsub, FVal.fdiv, if_pos rfl, if_neg hne,
      if_neg (not_lt_of_gt (sub_neg.mpr hlt)), FVal.nanToZero,
      if_neg (by decide)]

/-- Witness for the amended C6 at concrete inputs: a missing value
(NaN) standardizes to `0`, and a value above the mean with zero std
standardizes to `+Inf`. -/
theorem c6_standardize_amended_witness :
    standardize FVal.nan (FVal.fin 3) (FVal.fin 2) = FVal.fin 0 ∧
    standardize (FVal.fin 1) (FVal.fin 0) (FVal.fin 0) = FVal.pinf :=
  ⟨c6_standardize_amended.2.2.1 (FVal.fin 3) (FVal.fin 2),
    c6_standardize_amended.2.2.2.1 1 0 (by norm_num)⟩

/-! ## Claim C7: the bandwidth median heuristic -/

theorem sqdist_nonneg (a : List ℚ) : ∀ b : List ℚ, 0 ≤ sqdist a b := by
  induction a with
  | nil => intro b; simp [sqdist]
  | cons x xs ih =>
    intro b
    cases b with
    | nil => simp [sqdist]
    | cons y ys =>
      simp only [sqdist, List.zipWith_cons_cons, List.sum_cons]
      exact add_nonneg (sq_nonneg _) (ih ys)

theorem gram_expand (a : List ℚ) : ∀ b : List ℚ, a.length = b.length →
    (a.map (fun x => x ^ 2)).sum - 2 * dotL a b +
      (b.map (fun x => x ^ 2)).sum = sqdist a b := by
  induction a with
  | nil =>
    intro b h
    cases b with
    | nil => simp [sqdist, dotL]
    | cons y ys => simp at h
  | cons x xs ih =>
    intro b h
    cases b with
    | nil => simp at h
    | cons y ys =>
      have hlen : xs.length = ys.length := by simpa using h
      have hih := ih ys hlen
      simp only [sqdist, dotL, List.map_cons, List.sum_cons,
        List.zipWith_cons_cons] at hih ⊢
      linear_combination hih

theorem gramDist_eq_sqdist {a b : List ℚ} (h : a.length = b.length) :
    gramDist a b = sqdist a b := by
  rw [gramDist, gram_expand a b h]
  exact max_eq_right (sqdist_nonneg a b)

theorem mem_triuPairs {n i j : ℕ} : (i, j) ∈ triuPairs n ↔ i < j ∧ j < n := by
  simp only [triuPairs, List.mem_flatMap, List.mem_map, List.mem_filter,
    List.mem_range]
  constructor
  · rintro ⟨a, _, j2, ⟨hj2n, haj⟩, heq⟩
    have hai : a = i := congrArg Prod.fst heq
    have hjj : j2 = j := congrArg Prod.snd heq
    subst hai
    subst hjj
    exact ⟨by simpa using haj, hj2n⟩
  · rintro ⟨hij, hjn⟩
    exact ⟨i, lt_trans hij hjn, j, ⟨hjn, by simpa using hij⟩, rfl⟩

theorem forall2_mem_right {α β : Type} {R : α → β → Prop} :
    ∀ {l : List α} {bs : List β}, List.Forall₂ R l bs →
      ∀ b ∈ bs, ∃ a ∈ l, R a b := by
  intro l bs h
  induction h with
  | nil => intro b hb; cases hb
  | cons hr _ ih =>
    intro b hb
    rcases List.mem_cons.mp hb with rfl | hmem
    · exact ⟨_, List.mem_cons_self _ _, hr⟩
    · rcases ih b hmem with ⟨a, ha, hR⟩
      exact ⟨a, List.mem_cons_of_mem _ ha, hR⟩

theorem optMap_length {α β : Type} {f : α → Option β} {l : List α}
    {bs : List β} (h : optMap f l = some bs) : bs.length = l.length :=
  (optMap_forall2 f l bs h).length_eq.symm

theorem get_dummies_row_len {df : List Record} {stats : Stats}
    {info : SchemaInfo} {nf : Option ℕ} {skip : List String}
    {M : List (List FVal)} {names : List String}
    (h : get_dummies df stats info nf skip = some (M, names)) :
    ∀ row ∈ M, row.length = (keptReal info skip).length +
      ((keptDisc info skip).map (widthFn stats)).sum := by
  rw [get_dummies] at h
  rcases Option.bind_eq_some.mp h with ⟨means, hmeans, h⟩
  rcases Option.bind_eq_some.mp h with ⟨stds, hstds, h⟩
  rcases Option.bind_eq_some.mp h with ⟨rows, hrows, h⟩
  rcases Option.bind_eq_some.mp h with ⟨nms, hnms, h⟩
  rcases Option.bind_eq_some.mp h with ⟨w, hw, h⟩
  have hrowsM : rows = M := by
    by_cases hcond : w = nf.getD (_num_feats stats skip)
    · rw [if_pos hcond] at h
      exact congrArg Prod.fst (Option.some_injective _ h)
    · rw [if_neg hcond] at h
      cases h
  intro row hrow
  rw [← hrowsM] at hrow
  rcases optMap_exists_of_mem _ hrows hrow with ⟨r, _, hrw⟩
  rcases Option.map_eq_some'.mp hrw with ⟨blocks, hblocks, hrow_eq⟩
  rw [discRow] at hblocks
  rcases Option.map_eq_some'.mp hblocks with ⟨bl, hbl, hfl⟩
  have hlens : bl.map List.length =
      (keptDisc info skip).map (widthFn stats) := by
    apply forall2_map_eq (optMap_forall2 _ _ _ hbl)
    intro k b hkb
    rcases Option.bind_eq_some.mp hkb with ⟨vc, hvc, hdb⟩
    rw [discreteBlock_length hdb, widthFn, hvc]
  have hreal_len : (realRow (keptReal info skip) means stds r).length =
      (keptReal info skip).length := by
    rw [realRow, List.length_zipWith, List.length_zip,
      bcastVals_length hmeans, bcastVals_length hstds]
    simp
  rw [← hrow_eq, List.length_append, hreal_len, ← hfl,
    List.length_flatten, hlens]

/-- C7: `pick_gaussian_bandwidth` (modelled before its final `np.sqrt`
as `pick_gaussian_bandwidth_sq`) encodes the stats bundle's reference
sample with the same skip-set through `get_dummies` and returns the
median, over the strictly upper triangular index pairs `i < j` only
(diagonal self-distances excluded), of the pairwise squared Euclidean
distances between the encoded rows: sklearn's Gram-matrix formula
`‖x‖² - 2x·y + ‖y‖²` (with its negative-clip) agrees exactly with
`Σ (xᵢ - yᵢ)²` on the rationals.  The returned bandwidth is the square
root of this value. -/
theorem c7_bandwidth_median (stats : Stats) (info : SchemaInfo)
    (skip : List String) (md : List (List FVal) × List String)
    (mq : List (List ℚ))
    (h1 : get_dummies stats.sample stats info none skip = some md)
    (h2 : optMap (optMap FVal.finQ) md.1 = some mq) :
    pick_gaussian_bandwidth_sq stats info skip =
      npMedian ((triuPairs mq.length).map (fun ij =>
        sqdist (mq.getD ij.1 []) (mq.getD ij.2 []))) := by
  rw [pick_gaussian_bandwidth_sq, h1, Option.some_bind, h2, Option.some_bind]
  congr 1
  apply List.map_congr_left
  intro ij hij
  rcases ij with ⟨i, j⟩
  rcases mem_triuPairs.mp hij with ⟨hij2, hjn⟩
  have hrowlen := get_dummies_row_len h1
  have hqlen : ∀ qrow ∈ mq, qrow.length = (keptReal info skip).length +
      ((keptDisc info skip).map (widthFn stats)).sum := by
    intro qrow hq
    rcases forall2_mem_right (optMap_forall2 _ _ _ h2) qrow hq with
      ⟨row, hrowmem, hR⟩
    rw [optMap_length hR]
    exact hrowlen row hrowmem
  have hin : i < mq.length := lt_trans hij2 hjn
  have hmi : mq.getD i [] ∈ mq := by
    rw [List.getD_eq_getElem?_getD, List.getElem?_eq_getElem hin]
    exact List.getElem_mem hin
  have hmj : mq.getD j [] ∈ mq := by
    rw [List.getD_eq_getElem?_getD, List.getElem?_eq_getElem hjn]
    exact List.getElem_mem hjn
  exact gramDist_eq_sqdist (by rw [hqlen _ hmi, hqlen _ hmj])

/-- Witness for C7 at a concrete stats bundle: one discrete feature with
two categories and a two-record reference sample encoding to the
identity matrix. -/
theorem c7_bandwidth_median_witness :
    pick_gaussian_bandwidth_sq
      { real_means := [], real_stds := [],
        value_counts := [("D", [(FVal.fin 0, 1), (FVal.fin 1, 1)])],
        n_total := 2,
        sample := [(fun _ => FVal.fin 0 : Record),
          (fun _ => FVal.fin 1 : Record)] }
      { real_feats := [], discrete_feats := ["D"], alloc_flags := [] } [] =
      npMedian ((triuPairs ([[(1 : ℚ), 0], [0, 1]] :
          List (List ℚ)).length).map (fun ij =>
        sqdist (([[(1 : ℚ), 0], [0, 1]] : List (List ℚ)).getD ij.1 [])
          (([[(1 : ℚ), 0], [0, 1]] : List (List ℚ)).getD ij.2 []))) :=
  c7_bandwidth_median
    { real_means := [], real_stds := [],
      value_counts := [("D", [(FVal.fin 0, 1), (FVal.fin 1, 1)])],
      n_total := 2,
      sample := [(fun _ => FVal.fin 0 : Record),
        (fun _ => FVal.fin 1 : Record)] }
    { real_feats := [], discrete_feats := ["D"], alloc_flags := [] } []
    ([[FVal.fin 1, FVal.fin 0], [FVal.fin 0, FVal.fin 1]], ["D_0", "D_1"])
    [[(1 : ℚ), 0], [0, 1]] (by decide) (by decide)

/-! ## Claim C9: subset counting and query-axis squeezing -/

theorem squeezeIf_isNoQ {β : Type} (b : Bool) (nsub : ℕ) (z : β)
    (m : List (List β)) :
    (squeezeIf b nsub z m).isNoQ = (b && decide (nsub = 1)) := by
  rw [squeezeIf]
  by_cases h : b = true ∧ nsub = 1
  · rw [if_pos h, Axised.isNoQ]
    simp [h.1, h.2]
  · rw [if_neg h, Axised.isNoQ]
    rcases Decidable.not_and_iff_or_not.mp h with h1 | h1 <;> simp [h1]

theorem count_concat_char (L : List Char) (b : Char) :
    (L ++ [b]).count ',' = L.count ',' + if b = ',' then 1 else 0 := by
  rw [List.count_append]
  by_cases hb : b = ','
  · simp [hb, List.count_singleton]
  · simp [List.count_singleton]

/-- C9: the sub-query count `subsets.rstrip()[:-1].count(',') + 1`
equals the number of comma-separated sub-expressions with one trailing
comma tolerated; and when exactly one query is requested with
`squeeze_queries` enabled the returned linear embedding, RFF embedding
and region weights all have their query axis squeezed away, while with
two or more queries the axis is present regardless of
`squeeze_queries`. -/
theorem c9_subset_squeeze {α V1 V2 : Type} [AddCommGroup V1] [Module ℚ V1]
    [AddCommGroup V2] [Module ℚ V2]
    (files : List (List (List α))) (stats : Stats) (info : SchemaInfo)
    (n_freqs : ℕ) (freqs0 : Option (List (List ℚ))) (bandwidth0 : Option ℚ)
    (skip_rbf : Bool) (skip_feats : List String)
    (subsets0 : Option (List Char)) (squeeze_queries : Bool)
    (skip_alloc_flags : Bool) (evalQ : List Char → List (α → Bool))
    (wt : α → ℚ) (enc : α → V1) (pickBW : ℚ)
    (sampleFreqs : ℕ → ℚ → List (List ℚ)) (mkRff : List (List ℚ) → α → V2) :
    (∀ s : List Char, nSubsetsCount s = numSubExprs s) ∧
    (squeeze_queries = true →
      nSubsetsCount (subsets0.getD defaultSubsets) = 1 →
      (get_embeddings files stats info n_freqs freqs0 bandwidth0 skip_rbf
        skip_feats subsets0 squeeze_queries skip_alloc_flags evalQ wt enc
        pickBW sampleFreqs mkRff).linOut.isNoQ = true ∧
      (get_embeddings files stats info n_freqs freqs0 bandwidth0 skip_rbf
        skip_feats subsets0 squeeze_queries skip_alloc_flags evalQ wt enc
        pickBW sampleFreqs mkRff).regionOut.isNoQ = true ∧
      (∀ x ∈ (get_embeddings files stats info n_freqs freqs0 bandwidth0
        skip_rbf skip_feats subsets0 squeeze_queries skip_alloc_flags evalQ
        wt enc pickBW sampleFreqs mkRff).rffOut, x.isNoQ = true)) ∧
    (2 ≤ nSubsetsCount (subsets0.getD defaultSubsets) →
      (get_embeddings files stats info n_freqs freqs0 bandwidth0 skip_rbf
        skip_feats subsets0 squeeze_queries skip_alloc_flags evalQ wt enc
        pickBW sampleFreqs mkRff).linOut.isNoQ = false ∧
      (get_embeddings files stats info n_freqs freqs0 bandwidth0 skip_rbf
        skip_feats subsets0 squeeze_queries skip_alloc_flags evalQ wt enc
        pickBW sampleFreqs mkRff).regionOut.isNoQ = false ∧
      (∀ x ∈ (get_embeddings files stats info n_freqs freqs0 bandwidth0
        skip_rbf skip_feats subsets0 squeeze_queries skip_alloc_flags evalQ
        wt enc pickBW sampleFreqs mkRff).rffOut, x.isNoQ = false)) := by
  refine ⟨?_, ?_, ?_⟩
  · intro s
    rw [nSubsetsCount, numSubExprs]
    rcases List.eq_nil_or_concat (rstrip s) with hnil | ⟨L, b, hcat⟩
    · rw [hnil]
      simp
    · rw [List.concat_eq_append] at hcat
      rw [hcat, List.dropLast_concat, List.getLast?_concat,
        count_concat_char]
      by_cases hb : b = ','
      · simp [hb]
      · simp [hb]
  · intro hsq hn
    cases hsr : skip_rbf <;>
      simp [get_embeddings, hsr, GEReturn.linOut, GEReturn.regionOut,
        GEReturn.rffOut, squeezeIf_isNoQ, hsq, hn]
  · intro hn
    have hne : ¬ nSubsetsCount (subsets0.getD defaultSubsets) = 1 := by
      omega
    cases hsr : skip_rbf <;>
      simp [get_embeddings, hsr, GEReturn.linOut, GEReturn.regionOut,
        GEReturn.rffOut, squeezeIf_isNoQ, hne]

/-- Witness for C9 at concrete inputs: the two-query string
`'A > 0, B > 0'` keeps the query axis even with squeeze enabled. -/
theorem c9_subset_squeeze_witness :
    (@get_embeddings ℕ ℚ ℚ _ _ _ _ []
      { real_means := [], real_stds := [], value_counts := [], n_total := 0,
        sample := [] }
      { real_feats := [], discrete_feats := [], alloc_flags := [] }
      4 none none true [] (some ("A > 0, B > 0".toList)) true true
      (fun _ => []) (fun _ => 0) (fun _ => 0) 0 (fun _ _ => [])
      (fun _ _ => 0)).linOut.isNoQ = false :=
  ((c9_subset_squeeze []
    { real_means := [], real_stds := [], value_counts := [], n_total := 0,
      sample := [] }
    { real_feats := [], discrete_feats := [], alloc_flags := [] }
    4 none none true [] (some ("A > 0, B > 0".toList)) true true
    (fun _ => []) (fun _ => 0) (fun _ => 0) 0 (fun _ _ => [])
    (fun _ _ => 0)).2.2 (by decide)).1

/-! ## Claim C5: the shape of the returned tuple -/

/-- Counterexample to C5 as stated: a call with caller-supplied
frequency matrix `[[1]]` and bandwidth `1` (`skip_rbf` false) still
returns a 6-tuple carrying that frequency matrix — the claim says the
returned tuple should omit it (and the bandwidth and feature names)
whenever they were not computed internally. -/
theorem c5_return_shape_counterexample :
    (@get_embeddings ℕ ℚ ℚ _ _ _ _ []
      { real_means := [], real_stds := [], value_counts := [], n_total := 0,
        sample := [] }
      { real_feats := [], discrete_feats := [], alloc_flags := [] }
      4 (some [[1]]) (some 1) false [] none true true
      (fun _ => []) (fun _ => 0) (fun _ => 0) 0 (fun _ _ => [])
      (fun _ _ => 0)).freqsOut = some [[1]] := by
  rfl

/-- C5 (amended): whether the returned tuple carries the frequency
matrix and bandwidth is determined solely by `skip_rbf`, not by whether
they were computed internally: with `skip_rbf` false the 6-tuple is
returned even when the caller supplied `freqs`/`bandwidth` (the
supplied values are echoed back, the bandwidth slot holding exactly the
caller's optional bandwidth), and the `feat_names` slot is present in
both return shapes. -/
theorem c5_return_shape_amended {α V1 V2 : Type} [AddCommGroup V1]
    [Module ℚ V1] [AddCommGroup V2] [Module ℚ V2]
    (files : List (List (List α))) (stats : Stats) (info : SchemaInfo)
    (n_freqs : ℕ) (freqs0 : Option (List (List ℚ))) (bandwidth0 : Option ℚ)
    (skip_rbf : Bool) (skip_feats : List String)
    (subsets0 : Option (List Char)) (squeeze_queries : Bool)
    (skip_alloc_flags : Bool) (evalQ : List Char → List (α → Bool))
    (wt : α → ℚ) (enc : α → V1) (pickBW : ℚ)
    (sampleFreqs : ℕ → ℚ → List (List ℚ)) (mkRff : List (List ℚ) → α → V2) :
    ((get_embeddings files stats info n_freqs freqs0 bandwidth0 skip_rbf
      skip_feats subsets0 squeeze_queries skip_alloc_flags evalQ wt enc
      pickBW sampleFreqs mkRff).hasFreqs = !skip_rbf) ∧
    (skip_rbf = false → ∀ F0, freqs0 = some F0 →
      (get_embeddings files stats info n_freqs freqs0 bandwidth0 skip_rbf
        skip_feats subsets0 squeeze_queries skip_alloc_flags evalQ wt enc
        pickBW sampleFreqs mkRff).freqsOut = some F0 ∧
      (get_embeddings files stats info n_freqs freqs0 bandwidth0 skip_rbf
        skip_feats subsets0 squeeze_queries skip_alloc_flags evalQ wt enc
        pickBW sampleFreqs mkRff).bwOut = some bandwidth0) ∧
    ((get_embeddings files stats info n_freqs freqs0 bandwidth0 skip_rbf
      skip_feats subsets0 squeeze_queries skip_alloc_flags evalQ wt enc
      pickBW sampleFreqs mkRff).namesOut =
      (if files.any (fun f => f.any (fun c => ¬ (keptRows (evalQ
          (if nSubsetsCount (subsets0.getD defaultSubsets) = 1
            then subsets0.getD defaultSubsets ++ [',']
            else subsets0.getD defaultSubsets)) c).isEmpty))
        then featNamesOf stats info
          (if skip_alloc_flags then skip_feats ++ info.alloc_flags
            else skip_feats)
        else none)) := by
  refine ⟨?_, ?_, ?_⟩
  · cases hsr : skip_rbf <;>
      simp [get_embeddings, hsr, GEReturn.hasFreqs]
  · intro hsr F0 hF0
    subst hF0
    simp [get_embeddings, hsr, GEReturn.freqsOut, GEReturn.bwOut]
  · cases hsr : skip_rbf <;>
      simp [get_embeddings, hsr, GEReturn.namesOut]

/-- Witness for the amended C5 at a concrete input with caller-supplied
frequencies and bandwidth. -/
theorem c5_return_shape_amended_witness :
    (@get_embeddings ℕ ℚ ℚ _ _ _ _ []
      { real_means := [], real_stds := [], value_counts := [], n_total := 0,
        sample := [] }
      { real_feats := [], discrete_feats := [], alloc_flags := [] }
      4 (some [[1]]) (some 1) false [] none true true
      (fun _ => []) (fun _ => 0) (fun _ => 0) 0 (fun _ _ => [])
      (fun _ _ => 0)).freqsOut = some [[1]] ∧
    (@get_embeddings ℕ ℚ ℚ _ _ _ _ []
      { real_means := [], real_stds := [], value_counts := [], n_total := 0,
        sample := [] }
      { real_feats := [], discrete_feats := [], alloc_flags := [] }
      4 (some [[1]]) (some 1) false [] none true true
      (fun _ => []) (fun _ => 0) (fun _ => 0) 0 (fun _ _ => [])
      (fun _ _ => 0)).bwOut = some (some 1) :=
  (c5_return_shape_amended []
    { real_means := [], real_stds := [], value_counts := [], n_total := 0,
      sample := [] }
    { real_feats := [], discrete_feats := [], alloc_flags := [] }
    4 (some [[1]]) (some 1) false [] none true true
    (fun _ => []) (fun _ => 0) (fun _ => 0) 0 (fun _ _ => [])
    (fun _ _ => 0)).2.1 rfl [[1]] rfl

/-! ## Claim C10: the default subset query -/

/-- C10: calling `get_embeddings` with `subsets` omitted behaves exactly
as calling it with the default query string `'PWGTP > 0'`; and under the
parsed form of that query (true exactly on records with strictly
positive replicate weight) the per-chunk row filter keeps precisely the
records with `PWGTP > 0` — zero-weight records are excluded from the
kept rows themselves, not merely given zero weight. -/
theorem c10_default_subsets {α V1 V2 : Type} [AddCommGroup V1]
    [Module ℚ V1] [AddCommGroup V2] [Module ℚ V2]
    (files : List (List (List α))) (stats : Stats) (info : SchemaInfo)
    (n_freqs : ℕ) (freqs0 : Option (List (List ℚ))) (bandwidth0 : Option ℚ)
    (skip_rbf : Bool) (skip_feats : List String) (squeeze_queries : Bool)
    (skip_alloc_flags : Bool) (evalQ : List Char → List (α → Bool))
    (wt : α → ℚ) (enc : α → V1) (pickBW : ℚ)
    (sampleFreqs : ℕ → ℚ → List (List ℚ)) (mkRff : List (List ℚ) → α → V2) :
    get_embeddings files stats info n_freqs freqs0 bandwidth0 skip_rbf
      skip_feats none squeeze_queries skip_alloc_flags evalQ wt enc
      pickBW sampleFreqs mkRff =
      get_embeddings files stats info n_freqs freqs0 bandwidth0 skip_rbf
        skip_feats (some defaultSubsets) squeeze_queries skip_alloc_flags
        evalQ wt enc pickBW sampleFreqs mkRff ∧
    defaultSubsets = "PWGTP > 0".toList ∧
    (∀ rows : List α,
      keptRows [fun r => decide (0 < wt r)] rows =
        rows.filter (fun r => decide (0 < wt r))) := by
  refine ⟨rfl, rfl, ?_⟩
  intro rows
  rw [keptRows_eq]
  apply List.filter_congr
  intro r _
  simp

end Featurize
